import Mathlib

/-!
# gdeps: pinning Go packages to revisions

A shallow embedding of `main.go`.  Go strings are Lean `String`s holding valid
Unicode text.  Everything the program does to the outside (messages, external
commands, import-path resolution, `chdir`, `stat`, `PATH` lookups) is appended
to a chronological trace kept in the `World`; what the outside answers is given
by an `Env`, whose answers may depend on the whole world reached so far.
-/

namespace Gdeps

/-! ## The Go library functions used by the program -/

/-- Go `unicode.IsSpace`: the Latin-1 spaces and the `White_Space` code points. -/
def isSpace (c : Char) : Bool :=
  let n := c.toNat
  (0x09 ≤ n && n ≤ 0x0D) || n == 0x20 || n == 0x85 || n == 0xA0 || n == 0x1680 ||
  (0x2000 ≤ n && n ≤ 0x200A) || n == 0x2028 || n == 0x2029 || n == 0x202F ||
  n == 0x205F || n == 0x3000

/-- Splitting a character list at every occurrence of `sep`, with the piece being
read kept in `cur`. -/
def splitAux (sep : Char) : List Char → List Char → List (List Char)
  | [], cur => [cur.reverse]
  | c :: cs, cur =>
    if c = sep then cur.reverse :: splitAux sep cs [] else splitAux sep cs (c :: cur)

/-- Go `strings.Split(s, sep)` for a separator of one character: never empty. -/
def split (s : String) (sep : Char) : List String :=
  (splitAux sep s.data []).map String.mk

/-- Go `strings.TrimSpace`: leading and trailing white space removed. -/
def trimSpace (s : String) : String :=
  String.mk (((s.data.dropWhile isSpace).reverse.dropWhile isSpace).reverse)

/-- The scan of `strings.Fields`: `cur` is the field being read, reversed. -/
def fieldsAux : List Char → List Char → List (List Char)
  | [], cur => if cur = [] then [] else [cur.reverse]
  | c :: cs, cur =>
    if isSpace c then
      if cur = [] then fieldsAux cs [] else cur.reverse :: fieldsAux cs []
    else fieldsAux cs (c :: cur)

/-- Go `strings.Fields`: the maximal runs of characters that are not white space. -/
def fields (s : String) : List String :=
  (fieldsAux s.data []).map String.mk

/-- An operand of a formatting call. -/
inductive Arg where
  | str (s : String)
  | int (n : Int)
  deriving DecidableEq, Repr

/-- The text of an operand under the verbs `%s`, `%d` and `%v`; a verb that does
not fit the operand gives the bad-verb text of Go. -/
def Arg.format (verb : Char) : Arg → List Char
  | .str s =>
    if verb = 's' ∨ verb = 'v' then s.data
    else '%' :: '!' :: verb :: "(string=".data ++ s.data ++ [')']
  | .int n =>
    if verb = 'd' ∨ verb = 'v' then (toString n).data
    else '%' :: '!' :: verb :: "(int=".data ++ (toString n).data ++ [')']

/-- What Go appends for operands no verb used up. -/
def extraArgs : List Arg → List Char
  | [] => []
  | a :: as =>
    let one : Arg → List Char := fun x =>
      match x with
      | .str s => "string=".data ++ s.data
      | .int n => "int=".data ++ (toString n).data
    "%!(EXTRA ".data ++ one a ++ (as.map (fun x => ", ".data ++ one x)).flatten ++ [')']

/-- The scan of `fmt.Sprintf` over the format: plain characters are copied, `%%`
is a percent sign, a verb takes the next operand.  The verbs `s`, `d` and `v`
without flags are covered, which is all the format strings of the program use. -/
def sprintfAux : List Char → List Arg → List Char
  | [], args => extraArgs args
  | ['%'], args => "%!(NOVERB)".data ++ extraArgs args
  | '%' :: '%' :: cs, args => '%' :: sprintfAux cs args
  | '%' :: v :: cs, [] => '%' :: '!' :: v :: "(MISSING)".data ++ sprintfAux cs []
  | '%' :: v :: cs, a :: as => a.format v ++ sprintfAux cs as
  | c :: cs, args => c :: sprintfAux cs args

/-- Go `fmt.Sprintf`. -/
def sprintf (format : String) (args : List Arg) : String :=
  String.mk (sprintfAux format.data args)

/-- The replacement of every line feed by a line feed and five blanks. -/
def formatOutputAux : List Char → List Char
  | [] => []
  | c :: cs => if c = '\n' then '\n' :: "     ".data ++ formatOutputAux cs
               else c :: formatOutputAux cs

/-- `formatOutput`: `bytes.Join(bytes.Split(in, "\n"), "\n     ")`. -/
def formatOutput (out : String) : String :=
  String.mk (formatOutputAux out.data)

/-! ## The registry -/

/-- `VcsInfo`. -/
structure VcsInfo where
  Name : String
  Tool : String
  Dir : String
  CheckoutCommand : String
  deriving DecidableEq, Repr

def vcsGit : VcsInfo :=
  { Name := "Git", Tool := "git", Dir := ".git", CheckoutCommand := "checkout %s" }

def vcsHg : VcsInfo :=
  { Name := "Mercurial", Tool := "hg", Dir := ".hg", CheckoutCommand := "update -C -r %s" }

def vcsSvn : VcsInfo :=
  { Name := "Subversion", Tool := "svn", Dir := ".svn", CheckoutCommand := "update -r %s" }

def vcsBzr : VcsInfo :=
  { Name := "Bazaar", Tool := "bzr", Dir := ".bzr", CheckoutCommand := "pull --overwrite -r %s" }

def vcsList : List VcsInfo := [vcsGit, vcsHg, vcsSvn, vcsBzr]

/-! ## The outside world -/

/-- The outcome of `os.Stat`. -/
inductive StatResult where
  /-- The file exists; `isDir` is `fi.IsDir()`. -/
  | info (isDir : Bool)
  /-- An error for which `os.IsNotExist` holds. -/
  | notExist
  /-- Any other error. -/
  | failure
  deriving DecidableEq, Repr

/-- The outcome of running an external command: the error of `Run` or
`CombinedOutput` (`none` for exit status 0) and the combined output. -/
structure RunResult where
  err : Option String
  out : String
  deriving DecidableEq, Repr

/-- One thing the program does to the outside, with the answer it got. -/
inductive Event where
  /-- Text written to standard output by `fmt.Printf`. -/
  | print (msg : String)
  /-- Text written to standard error by `Warnf`. -/
  | warn (msg : String)
  /-- An external command `exec.Command(tool, args...)` run to its end. -/
  | exec (tool : String) (args : List String) (ok : Bool)
  /-- The call `build.Import(path, srcDir, build.FindOnly)`, with `pkg.Dir`. -/
  | importPath (path srcDir : String) (dir : Option String)
  /-- The call `os.Chdir(dir)`. -/
  | chdir (dir : String) (ok : Bool)
  /-- The call `os.Stat(name)`. -/
  | stat (name : String) (r : StatResult)
  /-- The call `exec.LookPath(tool)`. -/
  | lookPath (tool : String) (ok : Bool)
  deriving DecidableEq, Repr

/-- The state the program runs in: the global `workingDir`, the working
directory of the process, and everything done so far, oldest first. -/
structure World where
  workingDir : String
  cwd : String
  trace : List Event
  deriving DecidableEq, Repr

/-- The answers of the outside, each a function of the world reached so far. -/
structure Env where
  run : World → String → List String → RunResult
  importDir : World → String → String → Option String
  chdir : World → String → Bool
  stat : World → String → StatResult
  lookPath : World → String → Bool

/-- One more event at the end of the trace. -/
def World.log (w : World) (e : Event) : World :=
  { w with trace := w.trace ++ [e] }

/-- `fmt.Printf`. -/
def printf (format : String) (args : List Arg) (w : World) : World :=
  w.log (.print (sprintf format args))

/-- `Warnf`. -/
def Warnf (format : String) (args : List Arg) (w : World) : World :=
  w.log (.warn (sprintf format args))

/-! ## The program -/

/-- `dirExists`: whether `dirname` exists as a directory; an error only when the
`stat` fails for another reason than the file not existing. -/
def dirExists (env : Env) (dirname : String) (w : World) : Except Unit Bool × World :=
  let r := env.stat w dirname
  let w := w.log (.stat dirname r)
  match r with
  | .notExist => (.ok false, w)
  | .failure => (.error (), w)
  | .info isDir => (.ok isDir, w)

/-- The body of `if exists` in the detection loop of `processLine`: the progress
message, the lookup of the tool and the checkout command of descriptor `x`. -/
def checkout (env : Env) (path rev : String) (x : VcsInfo) (w : World) : World :=
  let w := printf ">> setting package %s (%s) to version: %s\n"
    [.str path, .str x.Name, .str rev] w
  let found := env.lookPath w x.Tool
  let w := w.log (.lookPath x.Tool found)
  if !found then
    Warnf ">> tool \x27%s\x27 was not found in PATH\n" [.str x.Tool] w
  else
    let args := fields (sprintf x.CheckoutCommand [.str rev])
    let r := env.run w x.Tool args
    let w := w.log (.exec x.Tool args r.err.isNone)
    match r.err with
    | some err =>
      Warnf ">> output: %s\n" [.str (formatOutput r.out)]
        (Warnf ">> error setting version: %s\n" [.str err] w)
    | none => w

/-- The detection loop of `processLine` over the descriptors still to try.  The
flag says whether the function returned from inside the loop. -/
def detectLoop (env : Env) (path rev pkgDir : String) : List VcsInfo → World → World × Bool
  | [], w => (w, false)
  | x :: rest, w =>
    match dirExists env x.Dir w with
    | (.error _, w) =>
      detectLoop env path rev pkgDir rest
        (Warnf ">> could not check for dir \x27%s\x27 in %s\n" [.str x.Dir, .str pkgDir] w)
    | (.ok true, w) => (checkout env path rev x w, true)
    | (.ok false, w) => detectLoop env path rev pkgDir rest w

/-- The part of `processLine` that follows the parsing of the line, for the
package `path = args[0]` and the revision `rev = args[1]`. -/
def pinEntry (env : Env) (path rev : String) (w : World) : World :=
  let w := printf ">> getting package %s\n" [.str path] w
  let r := env.run w "go" ["get", "-u", "-d", path]
  let w := w.log (.exec "go" ["get", "-u", "-d", path] r.err.isNone)
  if r.err.isSome then
    Warnf ">> error getting: %s\n" [.str path] w
  else
    let pkg := env.importDir w path w.workingDir
    let w := w.log (.importPath path w.workingDir pkg)
    match pkg with
    | none => Warnf ">> could not get information about %s - version not set\n" [.str path] w
    | some dir =>
      let ok := env.chdir w dir
      let w := { w.log (.chdir dir ok) with cwd := if ok then dir else w.cwd }
      if !ok then
        Warnf ">> could not change to package dir: %s\n" [.str dir] w
      else
        match detectLoop env path rev dir vcsList w with
        | (w, true) => w
        | (w, false) => Warnf ">> unknown VCS type for package %s\n" [.str path] w

/-- The text of a manifest line that `processLine` splits into fields: what
stands before the first `#`, trimmed. -/
def stripLine (line : String) : String :=
  trimSpace ((split line '#').headD "")

/-- `processLine`. -/
def processLine (env : Env) (line : String) (linenum : Int) (w : World) : World :=
  let line := stripLine line
  if line.length = 0 then w
  else
    match fields line with
    | path :: rev :: _ => pinEntry env path rev w
    | _ => Warnf ">> bad line %d, skipping...\n" [.int linenum] w

/-- One manifest file as the reads of the scanner find it: its text, and the
number of characters delivered before a read fails, if one does. -/
structure Manifest where
  content : String
  readFails : Option Nat
  deriving DecidableEq, Repr

/-- The text that the reads deliver before the end of the file or the error. -/
def Manifest.delivered (m : Manifest) : List Char :=
  match m.readFails with
  | none => m.content.data
  | some k => m.content.data.take k

/-- Go `bufio.MaxScanTokenSize`, the size the buffer of a scanner grows to. -/
def maxScanTokenSize : Nat := 64 * 1024

/-- The number of bytes of a text in UTF-8. -/
def byteLen (l : List Char) : Nat :=
  (l.map Char.utf8Size).sum

/-- Go `dropCR`: one carriage return at the end of a line is dropped. -/
def dropCR (l : List Char) : List Char :=
  if l.getLast? = some '\r' then l.dropLast else l

/-- The tokens of a `bufio.Scanner` with the split function `ScanLines` over the
delivered text, `cur` being the line read so far, reversed.  A line of
`maxScanTokenSize` bytes or more fills the buffer before its line feed is
found: `Scan` then returns false, for this line and ever after.  The end of the
text, by the end of the file or by a read error, gives the last line when it is
not empty. -/
def scanAux : List Char → List Char → List String
  | [], cur =>
    if cur = [] then []
    else if maxScanTokenSize ≤ byteLen cur then []
    else [String.mk (dropCR cur.reverse)]
  | c :: cs, cur =>
    if c = '\n' then
      if maxScanTokenSize ≤ byteLen cur then []
      else String.mk (dropCR cur.reverse) :: scanAux cs []
    else scanAux cs (c :: cur)

/-- The successive values of `scanner.Text()` for which `scanner.Scan()` is
true. -/
def scanLines (m : Manifest) : List String :=
  scanAux m.delivered []

/-- A Go `int` of `bits` bits (32 or 64): the value of `i` after wrap-around. -/
def wrapInt (bits : Nat) (i : Int) : Int :=
  (i + 2 ^ (bits - 1)) % 2 ^ bits - 2 ^ (bits - 1)

/-- The loop of `main` over the lines the scanner yields, `i` being the counter
before the line is read. -/
def scanLoop (bits : Nat) (env : Env) : Int → List String → World → World
  | _, [], w => w
  | i, line :: rest, w =>
    scanLoop bits env (wrapInt bits (i + 1)) rest
      (processLine env line (wrapInt bits (i + 1)) w)

/-- The scan of the manifest in `main`, `int` having `bits` bits: the counter
starts at 0, and the loop ends when `scanner.Scan()` is false; `scanner.Err()`
is not looked at. -/
def mainLoop (bits : Nat) (env : Env) (m : Manifest) (w : World) : World :=
  scanLoop bits env 0 (scanLines m) w

/-- The physical lines of a text, `cur` being the line read so far, reversed. -/
def linesAux : List Char → List Char → List (List Char)
  | [], cur => if cur = [] then [] else [cur.reverse]
  | c :: cs, cur =>
    if c = '\n' then cur.reverse :: linesAux cs [] else linesAux cs (c :: cur)

/-- The physical lines of a text: what stands between its line feeds, and after
the last one when that is not empty. -/
def physicalLines (content : String) : List (List Char) :=
  linesAux content.data []

/-- A manifest of three lines whose second line is a comment of `n` characters. -/
def longLineManifest (n : Nat) : Manifest :=
  { content := String.mk ("a b".data ++ '\n' :: (List.replicate n '#' ++ '\n' :: "oops\n".data))
    readFails := none }

/-- A manifest of `n` empty lines followed by the line `oops`. -/
def blankLinesManifest (n : Nat) : Manifest :=
  { content := String.mk (List.replicate n '\n' ++ "oops\n".data), readFails := none }

/-- The manifest of the two lines `a b` and `oops`, of which a read error lets
only the first four characters through. -/
def brokenRead : Manifest :=
  { content := "a b\noops\n", readFails := some 4 }

/-- The manifest of the four lines `github.com/a/b v1`, empty, `oops` and
`github.com/c/d v2`. -/
def fourLines : Manifest :=
  { content := "github.com/a/b v1\n\noops\ngithub.com/c/d v2\n", readFails := none }

/-- A string the line parser can produce as a field: not empty and free of
white space. -/
def isToken (s : String) : Bool :=
  !s.data.isEmpty && s.data.all (fun c => !isSpace c)

/-! ## Sample environments -/

/-- A world before anything was done, in `/home/dev`. -/
def startWorld : World :=
  { workingDir := "/home/dev", cwd := "/home/dev", trace := [] }

/-- An environment in which every command succeeds, every import path resolves
below `/gopath/src/`, and a package directory holds the markers that `fs`
describes. -/
def sampleEnv (fs : String → StatResult) : Env :=
  { run := fun _ _ _ => { err := none, out := "" }
    importDir := fun _ path _ => some ("/gopath/src/" ++ path)
    chdir := fun _ _ => true
    stat := fun _ name => fs name
    lookPath := fun _ _ => true }

/-- An environment in which every external command fails. -/
def failingEnv : Env :=
  { sampleEnv (fun _ => .notExist) with
    run := fun _ _ _ => { err := some "exit status 1", out := "" } }

/-- A package directory under Git that also holds a `.hg` directory. -/
def gitAndHg (name : String) : StatResult :=
  if name = ".git" ∨ name = ".hg" then .info true else .notExist

/-- A package directory whose `.git` cannot be examined, `.hg` is a plain file
and `.svn` is a directory. -/
def brokenGit (name : String) : StatResult :=
  if name = ".git" then .failure
  else if name = ".hg" then .info false
  else if name = ".svn" then .info true
  else .notExist

/-! ## Reading a trace -/

/-- Whether an event is a warning `bad line`. -/
def isBadLine : Event → Bool
  | .warn m => ">> bad line ".data.isPrefixOf m.data
  | _ => false

/-- The arguments of a fetch: of a run of the `go` tool. -/
def fetchArgs : Event → Option (List String)
  | .exec tool args _ => if tool = "go" then some args else none
  | _ => none

/-- The stage of an event in the processing of a line: 0 for the fetch, 1 for
the import-path resolution, 2 for the change of directory, 3 for a marker
`stat`, 4 for the tool lookup, 5 for the checkout command.  Messages have no
stage. -/
def Event.stage : Event → Option Nat
  | .print _ => none
  | .warn _ => none
  | .exec tool _ _ => if tool = "go" then some 0 else some 5
  | .importPath _ _ _ => some 1
  | .chdir _ _ => some 2
  | .stat _ _ => some 3
  | .lookPath _ _ => some 4

/-- What the events `pre` that came before an event must hold: a successful
fetch of the path before its resolution; the resolution to `dir` before the
change to `dir`; the successful change to the resolved directory before a
`stat`; the `stat` that found the marker directory of a descriptor before the
lookup of its tool; the successful lookup of the tool, after a successful change
of directory, before a command of another tool than `go`. -/
def allowedAfter (pre : List Event) : Event → Prop
  | .print _ => True
  | .warn _ => True
  | .exec tool _ _ =>
    tool = "go" ∨ (.lookPath tool true ∈ pre ∧ ∃ dir, .chdir dir true ∈ pre)
  | .importPath path _ _ => .exec "go" ["get", "-u", "-d", path] true ∈ pre
  | .chdir dir _ => ∃ path srcDir, .importPath path srcDir (some dir) ∈ pre
  | .stat _ _ =>
    ∃ dir path srcDir, .importPath path srcDir (some dir) ∈ pre ∧ .chdir dir true ∈ pre
  | .lookPath tool _ => ∃ x ∈ vcsList, x.Tool = tool ∧ .stat x.Dir (.info true) ∈ pre

/-- The condition on every event of a line: it is allowed after what came before
it, and a failed lookup is followed by its warning and nothing else. -/
def stageOk (pre : List Event) (e : Event) (post : List Event) : Prop :=
  allowedAfter pre e ∧
    ∀ tool, e = .lookPath tool false →
      post = [.warn (">> tool \x27" ++ tool ++ "\x27 was not found in PATH\n")]

/-- Every event of `l`, read after the events `acc`, satisfies `stageOk`. -/
def Staged (acc l : List Event) : Prop :=
  ∀ pre e post, l = pre ++ e :: post → stageOk (acc ++ pre) e post

/-! ## Shapes of traces -/

/-- The events of the detection loop for a descriptor that does not match, in a
package directory whose state is `fs`: the `stat`, and the warning when it failed. -/
def statEvents (fs : String → StatResult) (pkgDir : String) (x : VcsInfo) : List Event :=
  .stat x.Dir (fs x.Dir) ::
    (if fs x.Dir = .failure then
      [.warn (">> could not check for dir \x27" ++ x.Dir ++ "\x27 in " ++ pkgDir ++ "\n")]
     else [])

/-- The events of the descriptors that the detection loop passed over in the
package directory `dir`: a `stat` that found no directory, or the warning for a
`stat` that failed. -/
def MissEvents (dir : String) (ds : List VcsInfo) (S : List Event) : Prop :=
  ∀ e ∈ S, ∃ y ∈ ds, (∃ r, r ≠ .info true ∧ e = .stat y.Dir r) ∨
    e = .warn (">> could not check for dir \x27" ++ y.Dir ++ "\x27 in " ++ dir ++ "\n")

/-- The events of `checkout` for the descriptor `x`. -/
inductive CheckoutShape (path rev : String) (x : VcsInfo) : List Event → Prop where
  | missing : CheckoutShape path rev x
      [.print (">> setting package " ++ path ++ " (" ++ x.Name ++ ") to version: " ++ rev
          ++ "\n"),
       .lookPath x.Tool false,
       .warn (">> tool \x27" ++ x.Tool ++ "\x27 was not found in PATH\n")]
  | done : CheckoutShape path rev x
      [.print (">> setting package " ++ path ++ " (" ++ x.Name ++ ") to version: " ++ rev
          ++ "\n"),
       .lookPath x.Tool true,
       .exec x.Tool (fields (sprintf x.CheckoutCommand [.str rev])) true]
  | failed (e out : String) : CheckoutShape path rev x
      [.print (">> setting package " ++ path ++ " (" ++ x.Name ++ ") to version: " ++ rev
          ++ "\n"),
       .lookPath x.Tool true,
       .exec x.Tool (fields (sprintf x.CheckoutCommand [.str rev])) false,
       .warn (">> error setting version: " ++ e ++ "\n"),
       .warn (">> output: " ++ formatOutput out ++ "\n")]

/-- The events of `pinEntry` for the package `path` and the revision `rev`. -/
inductive PinShape (path rev wd : String) : List Event → Prop where
  | fetchFailed : PinShape path rev wd
      [.print (">> getting package " ++ path ++ "\n"),
       .exec "go" ["get", "-u", "-d", path] false,
       .warn (">> error getting: " ++ path ++ "\n")]
  | unresolved : PinShape path rev wd
      [.print (">> getting package " ++ path ++ "\n"),
       .exec "go" ["get", "-u", "-d", path] true,
       .importPath path wd none,
       .warn (">> could not get information about " ++ path ++ " - version not set\n")]
  | noChdir (dir : String) : PinShape path rev wd
      [.print (">> getting package " ++ path ++ "\n"),
       .exec "go" ["get", "-u", "-d", path] true,
       .importPath path wd (some dir),
       .chdir dir false,
       .warn (">> could not change to package dir: " ++ dir ++ "\n")]
  | unknown (dir : String) (S : List Event) (hS : MissEvents dir vcsList S) :
    PinShape path rev wd
      (.print (">> getting package " ++ path ++ "\n") ::
       .exec "go" ["get", "-u", "-d", path] true ::
       .importPath path wd (some dir) ::
       .chdir dir true ::
       (S ++ [.warn (">> unknown VCS type for package " ++ path ++ "\n")]))
  | matched (dir : String) (S : List Event) (hS : MissEvents dir vcsList S)
      (x : VcsInfo) (hx : x ∈ vcsList) (T : List Event) (hT : CheckoutShape path rev x T) :
    PinShape path rev wd
      (.print (">> getting package " ++ path ++ "\n") ::
       .exec "go" ["get", "-u", "-d", path] true ::
       .importPath path wd (some dir) ::
       .chdir dir true ::
       (S ++ .stat x.Dir (.info true) :: T))

/-! ## Lemmas on the string functions -/

/-- Every character of a field comes from the field being read or from the text. -/
theorem fieldsAux_chars (cs : List Char) : ∀ cur t, t ∈ fieldsAux cs cur →
    ∀ c ∈ t, c ∈ cur ∨ c ∈ cs := by
  induction cs with
  | nil =>
    intro cur t ht c hc
    by_cases h : cur = []
    · simp [fieldsAux, h] at ht
    · simp [fieldsAux, h] at ht
      subst ht
      left; simpa using hc
  | cons d ds ih =>
    intro cur t ht c hc
    simp only [fieldsAux] at ht
    split at ht
    · split at ht
      · rcases ih [] t ht c hc with h | h
        · simp at h
        · right; simp [h]
      · rcases List.mem_cons.1 ht with h | h
        · subst h; left; simpa using hc
        · rcases ih [] t h c hc with h | h
          · simp at h
          · right; simp [h]
    · rcases ih (d :: cur) t ht c hc with h | h
      · rcases List.mem_cons.1 h with h | h
        · right; simp [h]
        · left; exact h
      · right; simp [h]

/-- Every field is non-empty and free of white space. -/
theorem fieldsAux_token (cs : List Char) : ∀ cur, (∀ c ∈ cur, isSpace c = false) →
    ∀ t ∈ fieldsAux cs cur, t ≠ [] ∧ ∀ c ∈ t, isSpace c = false := by
  induction cs with
  | nil =>
    intro cur hcur t ht
    by_cases h : cur = []
    · simp [fieldsAux, h] at ht
    · simp [fieldsAux, h] at ht
      subst ht
      exact ⟨by simpa using h, by simpa using hcur⟩
  | cons d ds ih =>
    intro cur hcur t ht
    simp only [fieldsAux] at ht
    split at ht
    · split at ht
      · exact ih [] (by simp) t ht
      · rename_i hne
        rcases List.mem_cons.1 ht with h | h
        · subst h
          exact ⟨by simpa using hne, by simpa using hcur⟩
        · exact ih [] (by simp) t h
    · rename_i hd
      refine ih (d :: cur) ?_ t ht
      intro c hc
      rcases List.mem_cons.1 hc with h | h
      · subst h; simpa using hd
      · exact hcur c h

/-- A run of characters that are not white space is read into the current field. -/
theorem fieldsAux_run (r : List Char) : (∀ c ∈ r, isSpace c = false) →
    ∀ rest cur, fieldsAux (r ++ rest) cur = fieldsAux rest (r.reverse ++ cur) := by
  induction r with
  | nil => intro _ rest cur; simp
  | cons d ds ih =>
    intro hr rest cur
    have hd : isSpace d = false := hr d (by simp)
    have ih2 := ih (fun c hc => hr c (by simp [hc])) rest (d :: cur)
    simp only [List.cons_append, fieldsAux, hd]
    simpa using ih2

/-- The first piece of a split is the text before the first separator. -/
theorem splitAux_head (sep : Char) (cs : List Char) : ∀ cur, ∃ tl,
    splitAux sep cs cur = (cur.reverse ++ cs.takeWhile (fun c => c ≠ sep)) :: tl := by
  induction cs with
  | nil => intro cur; exact ⟨[], by simp [splitAux]⟩
  | cons d ds ih =>
    intro cur
    by_cases h : d = sep
    · exact ⟨splitAux sep ds [], by simp [splitAux, h]⟩
    · obtain ⟨tl, htl⟩ := ih (d :: cur)
      exact ⟨tl, by simp [splitAux, h, htl]⟩

theorem split_head (s : String) (sep : Char) :
    (split s sep).headD "" = String.mk (s.data.takeWhile (fun c => c ≠ sep)) := by
  obtain ⟨tl, h⟩ := splitAux_head sep s.data []
  simp [split, h]

theorem stripLine_data (line : String) :
    (stripLine line).data =
      ((((line.data.takeWhile (fun c => c ≠ '#')).dropWhile isSpace).reverse.dropWhile
        isSpace).reverse) := by
  rw [stripLine, split_head]
  rfl

/-- The stripped text of a line holds no `#`. -/
theorem stripLine_chars (line : String) : ∀ c ∈ (stripLine line).data, c ≠ '#' := by
  intro c hc
  rw [stripLine_data] at hc
  have h1 : c ∈ line.data.takeWhile (fun c => c ≠ '#') := by
    have h2 := (List.dropWhile_sublist isSpace).subset (List.mem_reverse.1 hc)
    exact (List.dropWhile_sublist isSpace).subset (List.mem_reverse.1 h2)
  simpa using List.mem_takeWhile_imp h1

theorem dropWhile_of_head (p : Char → Bool) (l : List Char)
    (h : ∀ c ∈ l.head?, p c = false) : l.dropWhile p = l := by
  cases l with
  | nil => rfl
  | cons c cs => simp [List.dropWhile_cons, h c (by simp)]

theorem trim_two (a b : List Char) (ha : a ≠ []) (hb : b ≠ [])
    (hsa : ∀ c ∈ a, isSpace c = false) (hsb : ∀ c ∈ b, isSpace c = false) :
    ((((a ++ ' ' :: b).dropWhile isSpace).reverse.dropWhile isSpace).reverse) =
      a ++ ' ' :: b := by
  rw [dropWhile_of_head isSpace (a ++ ' ' :: b), dropWhile_of_head, List.reverse_reverse]
  · intro c hc
    cases hr : b.reverse with
    | nil => exact absurd (List.reverse_eq_nil_iff.1 hr) hb
    | cons d ds =>
      have hd : d ∈ b := List.mem_reverse.1 (by rw [hr]; simp)
      simp [hr] at hc
      subst hc
      exact hsb _ hd
  · intro c hc
    cases a with
    | nil => exact absurd rfl ha
    | cons d ds => simp at hc; subst hc; exact hsa _ (by simp)

theorem takeWhile_of_all (p : Char → Bool) (l : List Char) (h : ∀ c ∈ l, p c = true) :
    l.takeWhile p = l := by
  induction l with
  | nil => rfl
  | cons c cs ih =>
    simp [List.takeWhile_cons, h c (by simp), ih (fun d hd => h d (by simp [hd]))]

theorem fieldsAux_two (a b : List Char) (ha : a ≠ []) (hb : b ≠ [])
    (hsa : ∀ c ∈ a, isSpace c = false) (hsb : ∀ c ∈ b, isSpace c = false) :
    fieldsAux (a ++ ' ' :: b) [] = [a, b] := by
  rw [fieldsAux_run a hsa]
  have h1 : isSpace ' ' = true := by decide
  have h2 := fieldsAux_run b hsb [] []
  simp only [List.append_nil] at h2
  simp [fieldsAux, h1, ha, h2, hb]

theorem isToken_iff (s : String) :
    isToken s = true ↔ s.data ≠ [] ∧ ∀ c ∈ s.data, isSpace c = false := by
  cases h : s.data <;> simp [isToken, h]

theorem fields_isToken (s t : String) (h : t ∈ fields s) : isToken t = true := by
  obtain ⟨l, hl, rfl⟩ := List.mem_map.1 h
  exact (isToken_iff _).2 (fieldsAux_token s.data [] (by simp) l hl)

theorem fields_chars (s t : String) (h : t ∈ fields s) : ∀ c ∈ t.data, c ∈ s.data := by
  obtain ⟨l, hl, rfl⟩ := List.mem_map.1 h
  intro c hc
  rcases fieldsAux_chars s.data [] l hl c hc with h | h
  · simp at h
  · exact h

theorem fields_token (r : String) (h : isToken r = true) : fields r = [r] := by
  obtain ⟨h1, h2⟩ := (isToken_iff r).1 h
  have h3 := fieldsAux_run r.data h2 [] []
  simp only [List.append_nil] at h3
  simp [fields, h3, fieldsAux, h1]

/-- The line made of two fields `a` and `b` strips to itself and has the fields
`a`, `b`. -/
theorem fields_stripLine_two (a b : String) (ha : isToken a = true) (hb : isToken b = true)
    (hha : ∀ c ∈ a.data, c ≠ '#') (hhb : ∀ c ∈ b.data, c ≠ '#') :
    stripLine (a ++ " " ++ b) = a ++ " " ++ b ∧ fields (a ++ " " ++ b) = [a, b] := by
  obtain ⟨a1, a2⟩ := (isToken_iff a).1 ha
  obtain ⟨b1, b2⟩ := (isToken_iff b).1 hb
  have hd : (a ++ " " ++ b).data = a.data ++ ' ' :: b.data := by
    simp [String.data_append]
  constructor
  · apply String.ext
    rw [stripLine_data, hd, takeWhile_of_all, trim_two _ _ a1 b1 a2 b2]
    intro c hc
    rcases List.mem_append.1 hc with h | h
    · simpa using hha c h
    · rcases List.mem_cons.1 h with h | h
      · subst h; decide
      · simpa using hhb c h
  · simp only [fields, hd, fieldsAux_two _ _ a1 b1 a2 b2]
    rfl


/-! ## Parsing a manifest line -/

/-- A line with two fields or more is the pinning of its first two fields. -/
theorem processLine_entry (env : Env) (line : String) (n : Int) (w : World)
    (a b : String) (rest : List String) (h : fields (stripLine line) = a :: b :: rest) :
    processLine env line n w = pinEntry env a b w := by
  have hne : (stripLine line).length ≠ 0 := by
    intro h0
    have : (stripLine line).data = [] := List.length_eq_zero.1 h0
    simp [fields, this, fieldsAux] at h
  simp only [processLine, hne, if_false, h]

/-- The run of `pinEntry` when the fetch fails. -/
theorem pinEntry_fetch_fails (env : Env) (a b : String) (w : World) (e : String)
    (h : (env.run (printf ">> getting package %s\n" [.str a] w) "go"
      ["get", "-u", "-d", a]).err = some e) :
    pinEntry env a b w = { w with trace := w.trace ++
      [.print (">> getting package " ++ a ++ "\n"),
       .exec "go" ["get", "-u", "-d", a] false,
       .warn (">> error getting: " ++ a ++ "\n")] } := by
  simp only [pinEntry, h]
  simp [Warnf, printf, World.log]
  constructor <;> rfl


/-! ## The shape of a run -/

theorem msg_setting (path name rev : String) :
    sprintf ">> setting package %s (%s) to version: %s\n" [.str path, .str name, .str rev] =
      ">> setting package " ++ path ++ " (" ++ name ++ ") to version: " ++ rev ++ "\n" := by
  apply String.ext
  simp [sprintf, sprintfAux, Arg.format, extraArgs, String.data_append]

theorem msg_check (marker dir : String) :
    sprintf ">> could not check for dir \x27%s\x27 in %s\n" [.str marker, .str dir] =
      ">> could not check for dir \x27" ++ marker ++ "\x27 in " ++ dir ++ "\n" := by
  apply String.ext
  simp [sprintf, sprintfAux, Arg.format, extraArgs, String.data_append]

/-- The three runs of `checkout`: tool missing, command succeeded, command
failed. -/
theorem checkout_shape (env : Env) (path rev : String) (x : VcsInfo) (w : World) :
    ∃ found T, checkout env path rev x w = { w with trace := w.trace ++
        (.print (">> setting package " ++ path ++ " (" ++ x.Name ++ ") to version: " ++ rev
          ++ "\n") :: .lookPath x.Tool found :: T) } ∧
      ((found = false ∧
          T = [.warn (">> tool \x27" ++ x.Tool ++ "\x27 was not found in PATH\n")]) ∨
       (found = true ∧
          T = [.exec x.Tool (fields (sprintf x.CheckoutCommand [.str rev])) true]) ∨
       (found = true ∧ ∃ e out,
          T = [.exec x.Tool (fields (sprintf x.CheckoutCommand [.str rev])) false,
               .warn (">> error setting version: " ++ e ++ "\n"),
               .warn (">> output: " ++ formatOutput out ++ "\n")])) := by
  cases hf : env.lookPath (printf ">> setting package %s (%s) to version: %s\n"
      [.str path, .str x.Name, .str rev] w) x.Tool with
  | false =>
    refine ⟨false, _, ?_, Or.inl ⟨rfl, rfl⟩⟩
    simp only [checkout, hf]
    simp [Warnf, printf, World.log, msg_setting]
    rfl
  | true =>
    generalize hr : env.run ((printf ">> setting package %s (%s) to version: %s\n"
      [.str path, .str x.Name, .str rev] w).log (.lookPath x.Tool true)) x.Tool
      (fields (sprintf x.CheckoutCommand [.str rev])) = r
    obtain ⟨err, out⟩ := r
    cases err with
    | none =>
      refine ⟨true, _, ?_, Or.inr (Or.inl ⟨rfl, rfl⟩)⟩
      simp only [checkout, hf, hr]
      simp [printf, World.log, msg_setting]
    | some e =>
      refine ⟨true, _, ?_, Or.inr (Or.inr ⟨rfl, e, out, rfl⟩)⟩
      simp only [checkout, hf, hr]
      simp [Warnf, printf, World.log, msg_setting]
      refine ⟨rfl, rfl⟩


/-- The detection loop in a package directory whose state `fs` answers every
`stat`. -/
theorem detectLoop_fs (env : Env) (fs : String → StatResult) (path rev dir : String) :
    ∀ (ds : List VcsInfo) (w : World), (∀ v, ∀ x ∈ ds, env.stat v x.Dir = fs x.Dir) →
    detectLoop env path rev dir ds w =
      match ds.find? (fun x => decide (fs x.Dir = .info true)) with
      | some x =>
        (checkout env path rev x { w with trace := w.trace ++
          ((ds.takeWhile (fun y => !decide (fs y.Dir = .info true))).flatMap
            (statEvents fs dir)) ++ [.stat x.Dir (.info true)] }, true)
      | none => ({ w with trace := w.trace ++ ds.flatMap (statEvents fs dir) }, false) := by
  intro ds
  induction ds with
  | nil => intro w _; simp [detectLoop]
  | cons y ys ih =>
    intro w hfs
    have hy0 : ∀ v, env.stat v y.Dir = fs y.Dir := fun v => hfs v y (by simp)
    have ih2 := fun v => ih v (fun u x hx => hfs u x (by simp [hx]))
    cases hy : fs y.Dir with
    | info isDir =>
      cases isDir with
      | true => simp [detectLoop, dirExists, hy0, hy, World.log]
      | false =>
        simp only [detectLoop, dirExists, hy0, hy, ih2]
        simp [hy, World.log, statEvents, List.flatMap_cons]
    | notExist =>
      simp only [detectLoop, dirExists, hy0, hy, ih2]
      simp [hy, World.log, statEvents, List.flatMap_cons]
    | failure =>
      simp only [detectLoop, dirExists, hy0, hy, ih2]
      simp [hy, World.log, statEvents, List.flatMap_cons, Warnf, msg_check]

theorem checkout_trace (env : Env) (path rev : String) (x : VcsInfo) (w : World) :
    ∃ T, CheckoutShape path rev x T ∧
      checkout env path rev x w = { w with trace := w.trace ++ T } := by
  obtain ⟨found, T, h, hT⟩ := checkout_shape env path rev x w
  rcases hT with ⟨rfl, rfl⟩ | ⟨rfl, rfl⟩ | ⟨rfl, e, out, rfl⟩
  · exact ⟨_, .missing, h⟩
  · exact ⟨_, .done, h⟩
  · exact ⟨_, .failed e out, h⟩

/-- The detection loop in any environment: events of descriptors passed over,
then either a fall through or the `stat` that matched and the checkout. -/
theorem detectLoop_shape (env : Env) (path rev dir : String) :
    ∀ (ds : List VcsInfo) (w : World), ∃ S, MissEvents dir ds S ∧
      (detectLoop env path rev dir ds w = ({ w with trace := w.trace ++ S }, false) ∨
       ∃ x ∈ ds, detectLoop env path rev dir ds w =
        (checkout env path rev x
          { w with trace := w.trace ++ S ++ [.stat x.Dir (.info true)] }, true)) := by
  intro ds
  induction ds with
  | nil => intro w; exact ⟨[], by simp [MissEvents], Or.inl (by simp [detectLoop])⟩
  | cons y ys ih =>
    intro w
    have hmono : ∀ S, MissEvents dir ys S → ∀ e ∈ S, ∃ z ∈ y :: ys,
        (∃ r, r ≠ .info true ∧ e = .stat z.Dir r) ∨
        e = .warn (">> could not check for dir \x27" ++ z.Dir ++ "\x27 in " ++ dir ++ "\n") := by
      intro S hS e he
      obtain ⟨z, hz, h⟩ := hS e he
      exact ⟨z, List.mem_cons_of_mem _ hz, h⟩
    cases hy : env.stat w y.Dir with
    | info isDir =>
      cases isDir with
      | true =>
        refine ⟨[], by simp [MissEvents], Or.inr ⟨y, by simp, ?_⟩⟩
        simp [detectLoop, dirExists, hy, World.log]
      | false =>
        obtain ⟨S, hS, h⟩ := ih (w.log (.stat y.Dir (.info false)))
        refine ⟨.stat y.Dir (.info false) :: S, ?_, ?_⟩
        · intro e he
          rcases List.mem_cons.1 he with rfl | he
          · exact ⟨y, by simp, Or.inl ⟨_, by simp, rfl⟩⟩
          · exact hmono S hS e he
        · simp [World.log] at h
          rcases h with h | ⟨x, hx, h⟩
          · left; simp [detectLoop, dirExists, hy, h, World.log]
          · right; exact ⟨x, List.mem_cons_of_mem _ hx, by
              simp [detectLoop, dirExists, hy, h, World.log]⟩
    | notExist =>
      obtain ⟨S, hS, h⟩ := ih (w.log (.stat y.Dir .notExist))
      refine ⟨.stat y.Dir .notExist :: S, ?_, ?_⟩
      · intro e he
        rcases List.mem_cons.1 he with rfl | he
        · exact ⟨y, by simp, Or.inl ⟨_, by simp, rfl⟩⟩
        · exact hmono S hS e he
      · simp [World.log] at h
        rcases h with h | ⟨x, hx, h⟩
        · left; simp [detectLoop, dirExists, hy, h, World.log]
        · right; exact ⟨x, List.mem_cons_of_mem _ hx, by
            simp [detectLoop, dirExists, hy, h, World.log]⟩
    | failure =>
      obtain ⟨S, hS, h⟩ := ih (Warnf ">> could not check for dir \x27%s\x27 in %s\n"
        [.str y.Dir, .str dir] (w.log (.stat y.Dir .failure)))
      refine ⟨.stat y.Dir .failure :: .warn (">> could not check for dir \x27" ++ y.Dir ++
        "\x27 in " ++ dir ++ "\n") :: S, ?_, ?_⟩
      · intro e he
        rcases List.mem_cons.1 he with rfl | he
        · exact ⟨y, by simp, Or.inl ⟨_, by simp, rfl⟩⟩
        · rcases List.mem_cons.1 he with rfl | he
          · exact ⟨y, by simp, Or.inr rfl⟩
          · exact hmono S hS e he
      · simp [World.log, Warnf, msg_check] at h
        rcases h with h | ⟨x, hx, h⟩
        · left; simp [detectLoop, dirExists, hy, h, World.log, Warnf, msg_check]
        · right; exact ⟨x, List.mem_cons_of_mem _ hx, by
            simp [detectLoop, dirExists, hy, h, World.log, Warnf, msg_check]⟩


theorem msg_info (path : String) :
    sprintf ">> could not get information about %s - version not set\n" [.str path] =
      ">> could not get information about " ++ path ++ " - version not set\n" := by
  apply String.ext
  simp [sprintf, sprintfAux, Arg.format, extraArgs, String.data_append]

theorem msg_getting (path : String) :
    sprintf ">> getting package %s\n" [.str path] = ">> getting package " ++ path ++ "\n" :=
  rfl

/-- Every run of `pinEntry` has one of the shapes of `PinShape`. -/
theorem pinEntry_shape (env : Env) (a b : String) (w : World) :
    ∃ es, PinShape a b w.workingDir es ∧ (pinEntry env a b w).trace = w.trace ++ es ∧
      (pinEntry env a b w).workingDir = w.workingDir := by
  generalize hr : env.run (printf ">> getting package %s\n" [.str a] w) "go"
    ["get", "-u", "-d", a] = r
  obtain ⟨err, out⟩ := r
  cases err with
  | some e =>
    refine ⟨_, .fetchFailed, ?_⟩
    rw [pinEntry_fetch_fails env a b w e (by rw [hr])]
    simp
  | none =>
    generalize hp : env.importDir ((printf ">> getting package %s\n" [.str a] w).log
      (.exec "go" ["get", "-u", "-d", a] true)) a w.workingDir = pkg
    have hp2 := hp
    simp [printf, World.log, msg_getting] at hp2
    cases pkg with
    | none =>
      refine ⟨_, .unresolved, ?_⟩
      simp only [pinEntry, hr]
      simp [Warnf, printf, World.log, msg_getting, hp2, msg_info]
    | some dir =>
      generalize hc : env.chdir (((printf ">> getting package %s\n" [.str a] w).log
        (.exec "go" ["get", "-u", "-d", a] true)).log
        (.importPath a w.workingDir (some dir))) dir = ok
      have hc2 := hc
      simp [printf, World.log, msg_getting] at hc2
      cases ok with
      | false =>
        refine ⟨_, .noChdir dir, ?_⟩
        simp only [pinEntry, hr]
        simp [Warnf, printf, World.log, msg_getting, hp2, hc2]
        rfl
      | true =>
        obtain ⟨S, hS, h⟩ := detectLoop_shape env a b dir vcsList
          { workingDir := w.workingDir, cwd := dir, trace := w.trace ++
            [.print (">> getting package " ++ a ++ "\n"),
             .exec "go" ["get", "-u", "-d", a] true,
             .importPath a w.workingDir (some dir),
             .chdir dir true] }
        simp only [] at h
        rcases h with h | ⟨x, hx, h⟩
        · refine ⟨_, .unknown dir S hS, ?_⟩
          simp only [pinEntry, hr]
          simp [Warnf, printf, World.log, msg_getting, hp2, hc2, h]
          rfl
        · obtain ⟨T, hT, hco⟩ := checkout_trace env a b x
            { workingDir := w.workingDir, cwd := dir, trace := w.trace ++
            [.print (">> getting package " ++ a ++ "\n"),
             .exec "go" ["get", "-u", "-d", a] true,
             .importPath a w.workingDir (some dir),
             .chdir dir true] ++ S ++ [.stat x.Dir (.info true)] }
          refine ⟨_, .matched dir S hS x hx T hT, ?_⟩
          simp only [pinEntry, hr]
          simp [Warnf, printf, World.log, msg_getting, hp2, hc2]
          rw [h]
          simp only []
          rw [hco]
          simp

/-- The run of `pinEntry` when fetch, resolution and change of directory
succeed, in a package directory of state `fs`. -/
theorem pinEntry_detect (env : Env) (fs : String → StatResult) (a b dir : String) (w : World)
    (hfetch : ∀ v, (env.run v "go" ["get", "-u", "-d", a]).err = none)
    (himport : ∀ v, env.importDir v a w.workingDir = some dir)
    (hchdir : ∀ v, env.chdir v dir = true)
    (hfs : ∀ v, ∀ x ∈ vcsList, env.stat v x.Dir = fs x.Dir) :
    pinEntry env a b w =
      match vcsList.find? (fun x => decide (fs x.Dir = .info true)) with
      | some x =>
        checkout env a b x { workingDir := w.workingDir, cwd := dir, trace := w.trace ++
          [.print (">> getting package " ++ a ++ "\n"),
           .exec "go" ["get", "-u", "-d", a] true,
           .importPath a w.workingDir (some dir),
           .chdir dir true] ++
          ((vcsList.takeWhile (fun y => !decide (fs y.Dir = .info true))).flatMap
            (statEvents fs dir)) ++ [.stat x.Dir (.info true)] }
      | none =>
        { workingDir := w.workingDir, cwd := dir, trace := w.trace ++
          [.print (">> getting package " ++ a ++ "\n"),
           .exec "go" ["get", "-u", "-d", a] true,
           .importPath a w.workingDir (some dir),
           .chdir dir true] ++
          vcsList.flatMap (statEvents fs dir) ++
          [.warn (">> unknown VCS type for package " ++ a ++ "\n")] } := by
  have hm : sprintf ">> unknown VCS type for package %s\n" [.str a] =
      ">> unknown VCS type for package " ++ a ++ "\n" := rfl
  simp only [pinEntry, hfetch]
  simp only [printf, World.log, msg_getting, himport, hchdir, Option.isSome_none,
    Option.isNone_none, Bool.false_eq_true, if_false, if_true, Bool.not_true]
  rw [detectLoop_fs env fs a b dir vcsList _ hfs]
  cases hfind : vcsList.find? (fun x => decide (fs x.Dir = .info true)) with
  | none => simp [Warnf, World.log, hm]
  | some x => simp

/-- A non-empty stripped text with fewer than two fields gives the warning `bad
line` only. -/
theorem processLine_one_field (env : Env) (line : String) (n : Int) (w : World)
    (hne : stripLine line ≠ "") (h : (fields (stripLine line)).length < 2) :
    processLine env line n w =
      { w with trace := w.trace ++ [.warn (">> bad line " ++ toString n ++ ", skipping...\n")] } := by
  have h0 : (stripLine line).length ≠ 0 := by
    intro h0
    exact hne (String.ext (List.length_eq_zero.1 h0))
  have hm : sprintf ">> bad line %d, skipping...\n" [.int n] =
      ">> bad line " ++ toString n ++ ", skipping...\n" := rfl
  simp only [processLine, h0, if_false]
  match hf : fields (stripLine line), h with
  | [], _ => simp [Warnf, World.log, hm]
  | [_], _ => simp [Warnf, World.log, hm]
  | _ :: _ :: _, h => exact absurd h (by simp)


/-! ## The claims on parsing -/

/-- C1: when the text before the first `#`, trimmed, has the fields `a`, `b` and
possibly more, `processLine` is the pinning of package `a` to revision `b`; the
line behaves exactly like the line `a b`; its first two events are the progress
message and the fetch `go get -u -d a`.  The line
`github.com/foo/bar v1.2.3 # pin` has the fields `github.com/foo/bar` and
`v1.2.3`. -/
theorem processLine_first_two_tokens (env : Env) (line : String) (n : Int) (w : World)
    (a b : String) (rest : List String) (h : fields (stripLine line) = a :: b :: rest) :
    processLine env line n w = pinEntry env a b w ∧
    processLine env (a ++ " " ++ b) n w = processLine env line n w ∧
    (∃ ok es, (processLine env line n w).trace = w.trace ++
      (.print (">> getting package " ++ a ++ "\n") ::
        .exec "go" ["get", "-u", "-d", a] ok :: es)) ∧
    fields (stripLine "github.com/foo/bar v1.2.3 # pin") = ["github.com/foo/bar", "v1.2.3"] := by
  have h1 := processLine_entry env line n w a b rest h
  have ha : a ∈ fields (stripLine line) := by rw [h]; simp
  have hb : b ∈ fields (stripLine line) := by rw [h]; simp
  have h2 := fields_stripLine_two a b (fields_isToken _ _ ha) (fields_isToken _ _ hb)
    (fun c hc => stripLine_chars line c (fields_chars _ _ ha c hc))
    (fun c hc => stripLine_chars line c (fields_chars _ _ hb c hc))
  refine ⟨h1, ?_, ?_, by decide⟩
  · rw [h1]
    exact processLine_entry env _ n w a b [] (by rw [h2.1, h2.2])
  · rw [h1]
    obtain ⟨es, hs, ht, _⟩ := pinEntry_shape env a b w
    rw [ht]
    cases hs <;> exact ⟨_, _, rfl⟩

/-- Witness of C1: the line `github.com/foo/bar v1.2.3 # pin`. -/
theorem processLine_first_two_tokens_witness :
    processLine (sampleEnv gitAndHg) "github.com/foo/bar v1.2.3 # pin" 1 startWorld =
      pinEntry (sampleEnv gitAndHg) "github.com/foo/bar" "v1.2.3" startWorld :=
  (processLine_first_two_tokens (sampleEnv gitAndHg) "github.com/foo/bar v1.2.3 # pin" 1
    startWorld "github.com/foo/bar" "v1.2.3" [] (by decide)).1

/-- C2: a line whose text before the first `#` is empty once trimmed leaves the
world as it was: no message, no command, no `stat`, no change of directory.
Blank lines, lines of white space and lines holding only a comment are such
lines. -/
theorem processLine_empty (env : Env) (line : String) (n : Int) (w : World)
    (h : stripLine line = "") :
    processLine env line n w = w ∧
    stripLine "" = "" ∧ stripLine " \t  " = "" ∧ stripLine "   # just a comment" = "" := by
  refine ⟨?_, by decide, by decide, by decide⟩
  simp [processLine, h]

/-- Witness of C2: the line `   # just a comment`. -/
theorem processLine_empty_witness :
    processLine failingEnv "   # just a comment" 7 startWorld = startWorld :=
  (processLine_empty failingEnv "   # just a comment" 7 startWorld (by decide)).1

/-- C3 as stated fails: the empty line has fewer than two fields, and
`processLine` emits nothing for it. -/
theorem processLine_bad_line_counterexample :
    (fields (stripLine "")).length < 2 ∧
    processLine (sampleEnv gitAndHg) "" 1 startWorld = startWorld := by
  decide

/-- C3, amended: a line whose text before the first `#` is not empty once
trimmed and has fewer than two fields adds exactly one event, the warning
`bad line n`, and changes nothing else. -/
theorem processLine_bad_line (env : Env) (line : String) (n : Int) (w : World)
    (hne : stripLine line ≠ "") (h : (fields (stripLine line)).length < 2) :
    processLine env line n w =
      { w with trace := w.trace ++ [.warn (">> bad line " ++ toString n ++ ", skipping...\n")] } :=
  processLine_one_field env line n w hne h

/-- Witness of C3, amended: the line `oops` as line 3. -/
theorem processLine_bad_line_witness :
    processLine failingEnv "oops # one field" 3 startWorld =
      { startWorld with trace := [.warn ">> bad line 3, skipping...\n"] } :=
  processLine_bad_line failingEnv "oops # one field" 3 startWorld (by decide) (by decide)

/-! ## The claims on fetching and detection -/

/-- C8: when the fetch of a valid entry fails, `processLine` adds the progress
message, the failed fetch and one warning naming the package path, and nothing
else: no import-path resolution, no `chdir`, no `stat`, no lookup, no checkout;
the working directory is the one before the call. -/
theorem processLine_fetch_fails (env : Env) (line : String) (n : Int) (w : World)
    (a b : String) (rest : List String) (e : String)
    (h : fields (stripLine line) = a :: b :: rest)
    (hf : (env.run (w.log (.print (">> getting package " ++ a ++ "\n"))) "go"
      ["get", "-u", "-d", a]).err = some e) :
    processLine env line n w = { w with trace := w.trace ++
      [.print (">> getting package " ++ a ++ "\n"),
       .exec "go" ["get", "-u", "-d", a] false,
       .warn (">> error getting: " ++ a ++ "\n")] } ∧
    (processLine env line n w).cwd = w.cwd := by
  rw [processLine_entry env line n w a b rest h, pinEntry_fetch_fails env a b w e hf]
  exact ⟨rfl, rfl⟩

/-- Witness of C8: every command fails. -/
theorem processLine_fetch_fails_witness :
    (processLine failingEnv "github.com/foo/bar v1.2.3" 1 startWorld).cwd = "/home/dev" :=
  (processLine_fetch_fails failingEnv "github.com/foo/bar v1.2.3" 1 startWorld
    "github.com/foo/bar" "v1.2.3" [] "exit status 1" (by decide) (by decide)).2

theorem flatMap_statEvents (fs : String → StatResult) (dir : String) (l : List VcsInfo)
    (hok : ∀ x ∈ l, fs x.Dir ≠ .failure) :
    l.flatMap (statEvents fs dir) = l.map (fun y => Event.stat y.Dir (fs y.Dir)) := by
  induction l with
  | nil => rfl
  | cons y ys ih =>
    have hy : fs y.Dir ≠ .failure := hok y (by simp)
    simp [List.flatMap_cons, statEvents, hy, ih (fun x hx => hok x (by simp [hx]))]

/-- C4: in a package directory of state `fs` in which no `stat` of a marker
fails, the detection loop stats the markers in the order Git, Mercurial,
Subversion, Bazaar up to the first one that exists as a directory and runs
`checkout` for that descriptor; a marker that is not a directory does not match,
and when none matches the loop falls through after four stats.  `checkout` for
a descriptor looks up and runs that descriptor's tool with that descriptor's
template.  When `.git` is a directory Git is selected, whatever the other
markers are. -/
theorem detectLoop_first_match (env : Env) (fs : String → StatResult)
    (path rev dir : String) (w : World)
    (hfs : ∀ v, ∀ x ∈ vcsList, env.stat v x.Dir = fs x.Dir)
    (hok : ∀ x ∈ vcsList, fs x.Dir ≠ .failure) :
    (detectLoop env path rev dir vcsList w =
      match vcsList.find? (fun x => decide (fs x.Dir = .info true)) with
      | some x =>
        (checkout env path rev x { w with trace := w.trace ++
          ((vcsList.takeWhile (fun y => !decide (fs y.Dir = .info true))).map
            (fun y => Event.stat y.Dir (fs y.Dir))) ++ [.stat x.Dir (.info true)] }, true)
      | none =>
        ({ w with trace := w.trace ++ vcsList.map (fun y => Event.stat y.Dir (fs y.Dir)) },
          false)) ∧
    (∀ x v, ∃ T, CheckoutShape path rev x T ∧
      checkout env path rev x v = { v with trace := v.trace ++ T }) ∧
    (fs ".git" = .info true →
      detectLoop env path rev dir vcsList w =
        (checkout env path rev vcsGit
          { w with trace := w.trace ++ [.stat ".git" (.info true)] }, true)) ∧
    vcsList = [vcsGit, vcsHg, vcsSvn, vcsBzr] := by
  have hmain := detectLoop_fs env fs path rev dir vcsList w hfs
  have htw : ∀ x ∈ vcsList.takeWhile (fun y => !decide (fs y.Dir = .info true)),
      fs x.Dir ≠ .failure := fun x hx => hok x ((List.takeWhile_sublist _).subset hx)
  rw [flatMap_statEvents fs dir _ hok, flatMap_statEvents fs dir _ htw] at hmain
  refine ⟨hmain, fun x v => checkout_trace env path rev x v, ?_, rfl⟩
  intro hgit
  rw [hmain]
  have hg : fs vcsGit.Dir = .info true := hgit
  simp [vcsList, hg]
  rfl

/-- Witness of C4: a directory holding both a `.git` and a `.hg` directory. -/
theorem detectLoop_first_match_witness :
    detectLoop (sampleEnv gitAndHg) "github.com/foo/bar" "v1.2.3" "/gopath/src/github.com/foo/bar"
        vcsList startWorld =
      (checkout (sampleEnv gitAndHg) "github.com/foo/bar" "v1.2.3" vcsGit
        { startWorld with trace := [.stat ".git" (.info true)] }, true) :=
  (detectLoop_first_match (sampleEnv gitAndHg) gitAndHg "github.com/foo/bar" "v1.2.3"
    "/gopath/src/github.com/foo/bar" startWorld (fun _ _ _ => rfl) (by decide)).2.2.1 (by decide)

/-- C5: for a valid entry whose fetch, import-path resolution and change of
directory succeed, when none of the four markers exists in the package
directory, `processLine` stats the four markers and ends with one warning
`unknown VCS type` naming the package path: no tool is looked up and no
version-control command is run. -/
theorem processLine_unknown_vcs (env : Env) (line : String) (n : Int) (w : World)
    (a b dir : String) (rest : List String)
    (h : fields (stripLine line) = a :: b :: rest)
    (hfetch : ∀ v, (env.run v "go" ["get", "-u", "-d", a]).err = none)
    (himport : ∀ v, env.importDir v a w.workingDir = some dir)
    (hchdir : ∀ v, env.chdir v dir = true)
    (hstat : ∀ v, ∀ x ∈ vcsList, env.stat v x.Dir = .notExist) :
    processLine env line n w =
      { workingDir := w.workingDir, cwd := dir, trace := w.trace ++
        [.print (">> getting package " ++ a ++ "\n"),
         .exec "go" ["get", "-u", "-d", a] true,
         .importPath a w.workingDir (some dir),
         .chdir dir true,
         .stat ".git" .notExist,
         .stat ".hg" .notExist,
         .stat ".svn" .notExist,
         .stat ".bzr" .notExist,
         .warn (">> unknown VCS type for package " ++ a ++ "\n")] } := by
  rw [processLine_entry env line n w a b rest h,
    pinEntry_detect env (fun _ => .notExist) a b dir w hfetch himport hchdir hstat]
  simp [vcsList, statEvents, vcsGit, vcsHg, vcsSvn, vcsBzr]

/-- Witness of C5: a package directory without any marker. -/
theorem processLine_unknown_vcs_witness :
    (processLine (sampleEnv (fun _ => .notExist)) "github.com/foo/bar v1.2.3" 1
      startWorld).trace =
      [.print ">> getting package github.com/foo/bar\n",
       .exec "go" ["get", "-u", "-d", "github.com/foo/bar"] true,
       .importPath "github.com/foo/bar" "/home/dev" (some "/gopath/src/github.com/foo/bar"),
       .chdir "/gopath/src/github.com/foo/bar" true,
       .stat ".git" .notExist,
       .stat ".hg" .notExist,
       .stat ".svn" .notExist,
       .stat ".bzr" .notExist,
       .warn ">> unknown VCS type for package github.com/foo/bar\n"] :=
  congrArg World.trace
    (processLine_unknown_vcs (sampleEnv (fun _ => .notExist)) "github.com/foo/bar v1.2.3" 1
      startWorld "github.com/foo/bar" "v1.2.3" "/gopath/src/github.com/foo/bar" []
      (by decide) (fun _ => rfl) (fun _ => rfl) (fun _ => rfl) (fun _ _ _ => rfl))

/-- C9: for a valid entry whose fetch, import-path resolution and change of
directory succeed, in a package directory of state `fs`: every descriptor tried
before the selected one adds its `stat`, followed by the warning
`could not check` exactly when that `stat` failed with an error other than
"does not exist"; the loop goes on to the next descriptor in both cases.  The
first descriptor whose marker is a directory is checked out, also after failed
stats; when there is none, all four are tried and the line ends with the
warning `unknown VCS type`. -/
theorem processLine_stat_failure (env : Env) (fs : String → StatResult) (line : String)
    (n : Int) (w : World) (a b dir : String) (rest : List String)
    (h : fields (stripLine line) = a :: b :: rest)
    (hfetch : ∀ v, (env.run v "go" ["get", "-u", "-d", a]).err = none)
    (himport : ∀ v, env.importDir v a w.workingDir = some dir)
    (hchdir : ∀ v, env.chdir v dir = true)
    (hfs : ∀ v, ∀ x ∈ vcsList, env.stat v x.Dir = fs x.Dir) :
    processLine env line n w =
      match vcsList.find? (fun x => decide (fs x.Dir = .info true)) with
      | some x =>
        checkout env a b x { workingDir := w.workingDir, cwd := dir, trace := w.trace ++
          [.print (">> getting package " ++ a ++ "\n"),
           .exec "go" ["get", "-u", "-d", a] true,
           .importPath a w.workingDir (some dir),
           .chdir dir true] ++
          ((vcsList.takeWhile (fun y => !decide (fs y.Dir = .info true))).flatMap
            (fun y => .stat y.Dir (fs y.Dir) ::
              (if fs y.Dir = .failure then
                [.warn (">> could not check for dir \x27" ++ y.Dir ++ "\x27 in " ++ dir ++ "\n")]
               else []))) ++
          [.stat x.Dir (.info true)] }
      | none =>
        { workingDir := w.workingDir, cwd := dir, trace := w.trace ++
          [.print (">> getting package " ++ a ++ "\n"),
           .exec "go" ["get", "-u", "-d", a] true,
           .importPath a w.workingDir (some dir),
           .chdir dir true] ++
          (vcsList.flatMap
            (fun y => .stat y.Dir (fs y.Dir) ::
              (if fs y.Dir = .failure then
                [.warn (">> could not check for dir \x27" ++ y.Dir ++ "\x27 in " ++ dir ++ "\n")]
               else []))) ++
          [.warn (">> unknown VCS type for package " ++ a ++ "\n")] } := by
  rw [processLine_entry env line n w a b rest h]
  exact pinEntry_detect env fs a b dir w hfetch himport hchdir hfs

/-- Witness of C9: `.git` cannot be examined, `.hg` is a plain file and `.svn` is a
directory, so Subversion is checked out after one warning. -/
theorem processLine_stat_failure_witness :
    (processLine (sampleEnv brokenGit) "github.com/foo/bar v1.2.3" 1 startWorld).trace =
      [.print ">> getting package github.com/foo/bar\n",
       .exec "go" ["get", "-u", "-d", "github.com/foo/bar"] true,
       .importPath "github.com/foo/bar" "/home/dev" (some "/gopath/src/github.com/foo/bar"),
       .chdir "/gopath/src/github.com/foo/bar" true,
       .stat ".git" .failure,
       .warn ">> could not check for dir \x27.git\x27 in /gopath/src/github.com/foo/bar\n",
       .stat ".hg" (.info false),
       .stat ".svn" (.info true),
       .print ">> setting package github.com/foo/bar (Subversion) to version: v1.2.3\n",
       .lookPath "svn" true,
       .exec "svn" ["update", "-r", "v1.2.3"] true] :=
  (congrArg World.trace
    (processLine_stat_failure (sampleEnv brokenGit) brokenGit "github.com/foo/bar v1.2.3" 1
      startWorld "github.com/foo/bar" "v1.2.3" "/gopath/src/github.com/foo/bar" []
      (by decide) (fun _ => rfl) (fun _ => rfl) (fun _ => rfl) (fun _ _ _ => rfl))).trans
    (by decide)

/-! ## The claim on the checkout arguments -/

theorem fieldsAux_word (t rest : List Char) (ht : t ≠ [])
    (hs : ∀ c ∈ t, isSpace c = false) :
    fieldsAux (t ++ ' ' :: rest) [] = t :: fieldsAux rest [] := by
  rw [fieldsAux_run t hs]
  have h1 : isSpace ' ' = true := by decide
  simp [fieldsAux, h1, ht]

theorem fieldsAux_last (r : String) (hr : isToken r = true) :
    (fieldsAux r.data []).map String.mk = [r] := by
  have h := fields_token r hr
  simpa [fields] using h

theorem checkout_exec_args (env : Env) (path rev : String) (x : VcsInfo) (v : World) :
    ∃ T, checkout env path rev x v = { v with trace := v.trace ++ T } ∧
      ∀ tool args ok, Event.exec tool args ok ∈ T →
        tool = x.Tool ∧ args = fields (sprintf x.CheckoutCommand [.str rev]) := by
  obtain ⟨T, hT, h⟩ := checkout_trace env path rev x v
  refine ⟨T, h, ?_⟩
  intro tool args ok hmem
  cases hT <;> simp at hmem <;> simp [hmem]

/-- C6: every checkout template holds exactly one `%`, in its one field `%s`.
For a revision `r` that is not empty and holds no white space, the arguments
computed from a descriptor's template are the fields of the template with `%s`
replaced by `r`: `checkout r` for Git, `update -C -r r` for Mercurial,
`update -r r` for Subversion, `pull --overwrite -r r` for Bazaar; every command
that `checkout` runs for a descriptor is that descriptor's tool with these
arguments.  Revision `abc123` gives `checkout abc123` for Git. -/
theorem checkout_arguments (r : String) (hr : isToken r = true) :
    (∀ x ∈ vcsList, x.CheckoutCommand.data.count '%' = 1 ∧
      (fields x.CheckoutCommand).count "%s" = 1 ∧
      fields (sprintf x.CheckoutCommand [.str r]) =
        (fields x.CheckoutCommand).map (fun t => if t = "%s" then r else t)) ∧
    fields (sprintf vcsGit.CheckoutCommand [.str r]) = ["checkout", r] ∧
    fields (sprintf vcsHg.CheckoutCommand [.str r]) = ["update", "-C", "-r", r] ∧
    fields (sprintf vcsSvn.CheckoutCommand [.str r]) = ["update", "-r", r] ∧
    fields (sprintf vcsBzr.CheckoutCommand [.str r]) = ["pull", "--overwrite", "-r", r] ∧
    (∀ (env : Env) (path : String) (x : VcsInfo) (v : World), ∃ T,
      checkout env path r x v = { v with trace := v.trace ++ T } ∧
      ∀ tool args ok, Event.exec tool args ok ∈ T →
        tool = x.Tool ∧ args = fields (sprintf x.CheckoutCommand [.str r])) ∧
    fields (sprintf vcsGit.CheckoutCommand [.str "abc123"]) = ["checkout", "abc123"] := by
  have hlast := fieldsAux_last r hr
  have hgit : fields (sprintf vcsGit.CheckoutCommand [.str r]) = ["checkout", r] := by
    have hd : (sprintf vcsGit.CheckoutCommand [.str r]).data =
        "checkout".data ++ ' ' :: r.data := by
      simp [sprintf, sprintfAux, Arg.format, extraArgs, vcsGit]
    rw [fields, hd, fieldsAux_word _ _ (by decide) (by decide)]
    simp [hlast]
  have hhg : fields (sprintf vcsHg.CheckoutCommand [.str r]) = ["update", "-C", "-r", r] := by
    have hd : (sprintf vcsHg.CheckoutCommand [.str r]).data =
        "update".data ++ ' ' :: ("-C".data ++ ' ' :: ("-r".data ++ ' ' :: r.data)) := by
      simp [sprintf, sprintfAux, Arg.format, extraArgs, vcsHg]
    rw [fields, hd, fieldsAux_word _ _ (by decide) (by decide),
      fieldsAux_word _ _ (by decide) (by decide), fieldsAux_word _ _ (by decide) (by decide)]
    simp [hlast]
  have hsvn : fields (sprintf vcsSvn.CheckoutCommand [.str r]) = ["update", "-r", r] := by
    have hd : (sprintf vcsSvn.CheckoutCommand [.str r]).data =
        "update".data ++ ' ' :: ("-r".data ++ ' ' :: r.data) := by
      simp [sprintf, sprintfAux, Arg.format, extraArgs, vcsSvn]
    rw [fields, hd, fieldsAux_word _ _ (by decide) (by decide),
      fieldsAux_word _ _ (by decide) (by decide)]
    simp [hlast]
  have hbzr : fields (sprintf vcsBzr.CheckoutCommand [.str r]) =
      ["pull", "--overwrite", "-r", r] := by
    have hd : (sprintf vcsBzr.CheckoutCommand [.str r]).data =
        "pull".data ++ ' ' :: ("--overwrite".data ++ ' ' :: ("-r".data ++ ' ' :: r.data)) := by
      simp [sprintf, sprintfAux, Arg.format, extraArgs, vcsBzr]
    rw [fields, hd, fieldsAux_word _ _ (by decide) (by decide),
      fieldsAux_word _ _ (by decide) (by decide), fieldsAux_word _ _ (by decide) (by decide)]
    simp [hlast]
  refine ⟨?_, hgit, hhg, hsvn, hbzr, fun env path x v => checkout_exec_args env path r x v,
    by decide⟩
  intro x hx
  simp only [vcsList, List.mem_cons, List.mem_singleton, List.not_mem_nil, or_false] at hx
  rcases hx with rfl | rfl | rfl | rfl
  · refine ⟨by decide, by decide, ?_⟩
    rw [hgit]
    have hf : fields vcsGit.CheckoutCommand = ["checkout", "%s"] := by decide
    rw [hf]
    simp
  · refine ⟨by decide, by decide, ?_⟩
    rw [hhg]
    have hf : fields vcsHg.CheckoutCommand = ["update", "-C", "-r", "%s"] := by decide
    rw [hf]
    simp
  · refine ⟨by decide, by decide, ?_⟩
    rw [hsvn]
    have hf : fields vcsSvn.CheckoutCommand = ["update", "-r", "%s"] := by decide
    rw [hf]
    simp
  · refine ⟨by decide, by decide, ?_⟩
    rw [hbzr]
    have hf : fields vcsBzr.CheckoutCommand = ["pull", "--overwrite", "-r", "%s"] := by decide
    rw [hf]
    simp

/-- Witness of C6: the revision `abc123`. -/
theorem checkout_arguments_witness :
    fields (sprintf vcsHg.CheckoutCommand [.str "abc123"]) = ["update", "-C", "-r", "abc123"] :=
  (checkout_arguments "abc123" (by decide)).2.2.1

/-! ## The claim on the driver loop -/

theorem fieldsAux_ne_nil (l : List Char) : ∀ cur,
    (cur ≠ [] ∨ ∃ c ∈ l, isSpace c = false) → fieldsAux l cur ≠ [] := by
  induction l with
  | nil =>
    intro cur h
    rcases h with h | ⟨c, hc, _⟩
    · simp [fieldsAux, h]
    · simp at hc
  | cons d ds ih =>
    intro cur h
    cases hd : isSpace d with
    | true =>
      by_cases hcur : cur = []
      · simp only [fieldsAux, hd, hcur, if_true]
        apply ih
        right
        rcases h with h | ⟨c, hc, hs⟩
        · exact absurd hcur h
        · rcases List.mem_cons.1 hc with rfl | hc
          · rw [hd] at hs; cases hs
          · exact ⟨c, hc, hs⟩
      · simp [fieldsAux, hd, hcur]
    | false =>
      simp only [fieldsAux, hd]
      exact ih _ (Or.inl (by simp))

/-- A non-empty stripped text has a field. -/
theorem fields_stripLine_ne_nil (line : String) (h : (stripLine line).length ≠ 0) :
    fields (stripLine line) ≠ [] := by
  have hd := stripLine_data line
  have hne : (stripLine line).data ≠ [] := fun h0 => h (by simp [String.length, h0])
  generalize hX : (line.data.takeWhile (fun c => c ≠ '#')).dropWhile isSpace = X at hd
  cases hY : X.reverse.dropWhile isSpace with
  | nil => rw [hd, hY] at hne; simp at hne
  | cons c cs =>
    have hc : isSpace c = false := by
      have := List.head_dropWhile_not isSpace X.reverse (by rw [hY]; simp)
      simpa [hY] using this
    have hmem : c ∈ (stripLine line).data := by rw [hd, hY]; simp
    intro hf
    have := fieldsAux_ne_nil (stripLine line).data [] (Or.inr ⟨c, hmem, hc⟩)
    simp [fields] at hf
    exact this hf

theorem missEvents_read (dir : String) (S : List Event) (hS : MissEvents dir vcsList S) :
    S.filter isBadLine = [] ∧ S.filterMap fetchArgs = [] := by
  constructor
  · rw [List.filter_eq_nil_iff]
    intro e he
    obtain ⟨y, _, ⟨r, _, rfl⟩ | rfl⟩ := hS e he
    · simp [isBadLine]
    · have : isBadLine (.warn (">> could not check for dir \x27" ++ y.Dir ++ "\x27 in " ++ dir
        ++ "\n")) = false := rfl
      simp [this]
  · rw [List.filterMap_eq_nil_iff]
    intro e he
    obtain ⟨y, _, ⟨r, _, rfl⟩ | rfl⟩ := hS e he <;> rfl

theorem tool_ne_go (x : VcsInfo) (hx : x ∈ vcsList) : x.Tool ≠ "go" := by
  simp only [vcsList, List.mem_cons, List.mem_singleton, List.not_mem_nil, or_false] at hx
  rcases hx with rfl | rfl | rfl | rfl <;> decide

theorem checkoutShape_read (path rev : String) (x : VcsInfo) (hx : x ∈ vcsList)
    (T : List Event) (hT : CheckoutShape path rev x T) :
    T.filter isBadLine = [] ∧ T.filterMap fetchArgs = [] := by
  have hgo := tool_ne_go x hx
  cases hT with
  | missing => exact ⟨rfl, by simp [fetchArgs]⟩
  | done => exact ⟨rfl, by simp [fetchArgs, hgo]⟩
  | failed e out => exact ⟨rfl, by simp [fetchArgs, hgo]⟩

/-- A run of `pinEntry` holds no warning `bad line` and exactly one fetch. -/
theorem pinShape_read (a b wd : String) (es : List Event) (h : PinShape a b wd es) :
    es.filter isBadLine = [] ∧ es.filterMap fetchArgs = [["get", "-u", "-d", a]] := by
  cases h with
  | fetchFailed => exact ⟨rfl, rfl⟩
  | unresolved => exact ⟨rfl, rfl⟩
  | noChdir dir => exact ⟨rfl, rfl⟩
  | unknown dir S hS =>
    obtain ⟨h1, h2⟩ := missEvents_read dir S hS
    constructor
    · have : isBadLine (.warn (">> unknown VCS type for package " ++ a ++ "\n")) = false := rfl
      simp [List.filter_cons, isBadLine, h1, this]
    · simp [List.filterMap_cons, fetchArgs, h2]
  | matched dir S hS x hx T hT =>
    obtain ⟨h1, h2⟩ := missEvents_read dir S hS
    obtain ⟨h3, h4⟩ := checkoutShape_read a b x hx T hT
    constructor
    · simp [List.filter_cons, isBadLine, h1, h3]
    · simp [List.filterMap_cons, fetchArgs, h2, h4]

/-- The warnings `bad line` and the fetches that one line adds. -/
theorem processLine_read (env : Env) (line : String) (n : Int) (w : World) :
    (processLine env line n w).trace.filter isBadLine =
      w.trace.filter isBadLine ++
        (if (fields (stripLine line)).length = 1 then
          [.warn (">> bad line " ++ toString n ++ ", skipping...\n")] else []) ∧
    (processLine env line n w).trace.filterMap fetchArgs =
      w.trace.filterMap fetchArgs ++
        (match fields (stripLine line) with
         | a :: _ :: _ => [["get", "-u", "-d", a]]
         | _ => []) := by
  by_cases h0 : (stripLine line).length = 0
  · have hd : (stripLine line).data = [] := List.length_eq_zero.1 h0
    have hf : fields (stripLine line) = [] := by simp [fields, hd, fieldsAux]
    simp [processLine, h0, hf]
  · have hne := fields_stripLine_ne_nil line h0
    match hf : fields (stripLine line), hne with
    | [t], _ =>
      have hb := processLine_one_field env line n w
        (fun h => h0 (by rw [h]; rfl)) (by rw [hf]; simp)
      have hw : isBadLine (.warn (">> bad line " ++ toString n ++ ", skipping...\n")) = true := by
        simp [isBadLine, String.data_append]
      rw [hb]
      simp [List.filter_append, List.filter_cons, hw, List.filterMap_append, fetchArgs]
    | a :: b :: rest, _ =>
      rw [processLine_entry env line n w a b rest hf]
      obtain ⟨es, hs, ht, _⟩ := pinEntry_shape env a b w
      obtain ⟨h1, h2⟩ := pinShape_read a b _ es hs
      rw [ht]
      simp [List.filter_append, List.filterMap_append, h1, h2]

/-- A counter within the range of `int` is not changed by the wrap-around. -/
theorem wrapInt_id (bits : Nat) (i : Int) (hbits : 0 < bits) (h0 : 0 ≤ i)
    (h1 : i < 2 ^ (bits - 1)) : wrapInt bits i = i := by
  obtain ⟨b, rfl⟩ : ∃ b, bits = b + 1 := ⟨bits - 1, by omega⟩
  have hp : (0 : Int) < 2 ^ b := by positivity
  simp only [Nat.add_sub_cancel] at h1
  simp only [wrapInt, Nat.add_sub_cancel, pow_succ]
  rw [Int.emod_eq_of_lt (by omega) (by omega)]
  omega

/-- Within the range of `int`, the loop from counter `k` is the fold over the
lines numbered from `k + 1`. -/
theorem scanLoop_fold (bits : Nat) (env : Env) (hbits : 0 < bits) :
    ∀ (lines : List String) (k : Nat) (w : World), k + lines.length < 2 ^ (bits - 1) →
    scanLoop bits env (k : Int) lines w =
      (List.enumFrom (k + 1) lines).foldl (fun v p => processLine env p.2 (p.1 : Int) v) w := by
  intro lines
  induction lines with
  | nil => intro k w _; rfl
  | cons l ls ih =>
    intro k w hk
    simp only [List.length_cons] at hk
    have hw : wrapInt bits ((k : Int) + 1) = ((k + 1 : Nat) : Int) := by
      have h1 : ((k + 1 : Nat) : Int) < 2 ^ (bits - 1) := by
        have : k + 1 < 2 ^ (bits - 1) := by omega
        exact_mod_cast this
      rw [Nat.cast_add, Nat.cast_one] at h1 ⊢
      exact wrapInt_id bits _ hbits (by omega) h1
    simp only [scanLoop, List.enumFrom_cons, List.foldl_cons, hw]
    exact ih (k + 1) _ (by omega)

/-- The warnings `bad line` and the fetches of a fold of `processLine` over
numbered lines. -/
theorem fold_read (env : Env) : ∀ (lines : List String) (k : Nat) (w : World),
    ((List.enumFrom k lines).foldl (fun v p => processLine env p.2 (p.1 : Int) v)
        w).trace.filter isBadLine =
      w.trace.filter isBadLine ++
        (List.enumFrom k lines).filterMap (fun p =>
          if (fields (stripLine p.2)).length = 1 then
            some (Event.warn (">> bad line " ++ toString (p.1 : Int) ++ ", skipping...\n"))
          else none) ∧
    ((List.enumFrom k lines).foldl (fun v p => processLine env p.2 (p.1 : Int) v)
        w).trace.filterMap fetchArgs =
      w.trace.filterMap fetchArgs ++
        lines.filterMap (fun l =>
          match fields (stripLine l) with
          | a :: _ :: _ => some ["get", "-u", "-d", a]
          | _ => none) := by
  intro lines
  induction lines with
  | nil => intro k w; simp
  | cons l ls ih =>
    intro k w
    obtain ⟨h1, h2⟩ := ih (k + 1) (processLine env l (k : Int) w)
    obtain ⟨p1, p2⟩ := processLine_read env l (k : Int) w
    simp only [List.enumFrom_cons, List.foldl_cons]
    rw [h1, h2, p1, p2]
    constructor
    · by_cases hl : (fields (stripLine l)).length = 1
      · simp [hl]
      · simp [hl]
    · match hf : fields (stripLine l) with
      | [] => simp [hf]
      | [_] => simp [hf]
      | _ :: _ :: _ => simp [hf]

theorem byteLen_reverse (l : List Char) : byteLen l.reverse = byteLen l := by
  simp [byteLen, List.sum_reverse]

/-- When every physical line is shorter than the buffer, the scanner yields
every physical line, without its carriage return. -/
theorem scanAux_short (cs : List Char) : ∀ cur,
    (∀ l ∈ linesAux cs cur, byteLen l < maxScanTokenSize) →
    scanAux cs cur = (linesAux cs cur).map (fun l => String.mk (dropCR l)) := by
  induction cs with
  | nil =>
    intro cur h
    by_cases hc : cur = []
    · simp [scanAux, linesAux, hc]
    · have hlen := h cur.reverse (by simp [linesAux, hc])
      rw [byteLen_reverse] at hlen
      simp [scanAux, linesAux, hc, Nat.not_le.2 hlen]
  | cons c cs ih =>
    intro cur h
    by_cases hc : c = '\n'
    · have hlen := h cur.reverse (by simp [linesAux, hc])
      rw [byteLen_reverse] at hlen
      have hrest := ih [] (fun l hl => h l (by simp [linesAux, hc, hl]))
      simp [scanAux, linesAux, hc, Nat.not_le.2 hlen, hrest]
    · have hrest := ih (c :: cur) (fun l hl => h l (by simpa [linesAux, hc] using hl))
      simpa [scanAux, linesAux, hc] using hrest

/-- The scanner at a line without line feed that is followed by one. -/
theorem scanAux_line (l : List Char) (rest : List Char) : ∀ cur, '\n' ∉ l →
    scanAux (l ++ '\n' :: rest) cur =
      if maxScanTokenSize ≤ byteLen (l.reverse ++ cur) then []
      else String.mk (dropCR (l.reverse ++ cur).reverse) :: scanAux rest [] := by
  induction l with
  | nil => intro cur _; simp [scanAux]
  | cons c cs ih =>
    intro cur h
    have hc : c ≠ '\n' := fun hc => h (by simp [hc])
    have hcs : '\n' ∉ cs := fun hcs => h (by simp [hcs])
    have h2 := ih (c :: cur) hcs
    simp only [List.cons_append, scanAux, hc, if_false]
    simpa using h2

/-- The physical line that ends at the first line feed. -/
theorem linesAux_line (l : List Char) (rest : List Char) : ∀ cur, '\n' ∉ l →
    linesAux (l ++ '\n' :: rest) cur = (cur.reverse ++ l) :: linesAux rest [] := by
  induction l with
  | nil => intro cur _; simp [linesAux]
  | cons c cs ih =>
    intro cur h
    have hc : c ≠ '\n' := fun hc => h (by simp [hc])
    have hcs : '\n' ∉ cs := fun hcs => h (by simp [hcs])
    have h2 := ih (c :: cur) hcs
    simp only [List.cons_append, linesAux, hc, if_false]
    simpa using h2

theorem byteLen_comment (n : Nat) : byteLen (List.replicate n '#') = n := by
  induction n with
  | zero => rfl
  | succ k ih =>
    have h1 : Char.utf8Size '#' = 1 := by decide
    simp only [byteLen, List.replicate_succ, List.map_cons, List.sum_cons, h1] at ih ⊢
    omega

theorem comment_no_lf (n : Nat) : '\n' ∉ List.replicate n '#' := by
  intro h
  have := List.eq_of_mem_replicate h
  exact absurd this (by decide)

/-- The scan of a manifest whose second line is a comment that fills the buffer:
only the first line is yielded. -/
theorem scanLines_long (n : Nat) (hn : maxScanTokenSize ≤ n) :
    physicalLines (longLineManifest n).content =
      ["a b".data, List.replicate n '#', "oops".data] ∧
    scanLines (longLineManifest n) = ["a b"] := by
  constructor
  · show linesAux ("a b".data ++ '\n' :: (List.replicate n '#' ++ '\n' :: "oops\n".data)) [] = _
    rw [linesAux_line _ _ _ (by decide), linesAux_line _ _ _ (comment_no_lf n)]
    simp
    decide
  · show scanAux ("a b".data ++ '\n' :: (List.replicate n '#' ++ '\n' :: "oops\n".data)) [] = _
    rw [scanAux_line _ _ _ (by decide), scanAux_line _ _ _ (comment_no_lf n)]
    have h2 : maxScanTokenSize ≤ byteLen ((List.replicate n '#').reverse ++ []) := by
      rw [List.append_nil, byteLen_reverse, byteLen_comment]
      exact hn
    rw [if_pos h2]
    decide

/-- The scan of a manifest that is read to its end, whose physical lines are all
shorter than the buffer and fewer than the range of `int`: the fold of
`processLine` over the physical lines numbered from 1. -/
theorem mainLoop_fold (bits : Nat) (env : Env) (m : Manifest) (w : World)
    (hbits : 0 < bits) (hread : m.readFails = none)
    (hshort : ∀ l ∈ physicalLines m.content, byteLen l < maxScanTokenSize)
    (hcount : (physicalLines m.content).length < 2 ^ (bits - 1)) :
    mainLoop bits env m w =
      (List.enumFrom 1 ((physicalLines m.content).map (fun l => String.mk (dropCR l)))).foldl
        (fun v p => processLine env p.2 (p.1 : Int) v) w := by
  have hscan : scanLines m = (physicalLines m.content).map (fun l => String.mk (dropCR l)) := by
    simp only [scanLines, Manifest.delivered, hread]
    exact scanAux_short m.content.data [] hshort
  have h := scanLoop_fold bits env hbits (scanLines m) 0 w
    (by rw [hscan, List.length_map]; omega)
  simp only [Nat.cast_zero, Nat.zero_add] at h
  rw [mainLoop, h, hscan]

/-- The scan of a manifest whose second line is a comment that fills the buffer
is the processing of its first line. -/
theorem mainLoop_long (n : Nat) (hn : maxScanTokenSize ≤ n) (env : Env) (w : World) :
    mainLoop 64 env (longLineManifest n) w = processLine env "a b" 1 w := by
  have hw : wrapInt 64 ((0 : Int) + 1) = 1 := by decide
  rw [mainLoop, (scanLines_long n hn).2]
  simp only [scanLoop, hw]

/-- The warnings `bad line` of the fold over the three physical lines of that
manifest. -/
theorem fold_long (n : Nat) (hn : 0 < n) (env : Env) (w : World) :
    ((List.enumFrom 1 ["a b", String.mk (List.replicate n '#'), "oops"]).foldl
      (fun v p => processLine env p.2 (p.1 : Int) v) w).trace.filter isBadLine =
      w.trace.filter isBadLine ++ [.warn ">> bad line 3, skipping...\n"] := by
  obtain ⟨k, rfl⟩ : ∃ k, n = k + 1 := ⟨n - 1, by omega⟩
  have hc : fields (stripLine (String.mk (List.replicate (k + 1) '#'))) = [] := by
    have hd : (stripLine (String.mk (List.replicate (k + 1) '#'))).data = [] := by
      rw [stripLine_data, List.replicate_succ]
      simp
    simp [fields, hd, fieldsAux]
  have h1 : fields (stripLine "a b") = ["a", "b"] := by decide
  have h3 : fields (stripLine "oops") = ["oops"] := by decide
  rw [(fold_read env _ 1 w).1]
  simp only [List.enumFrom_cons, List.enumFrom_nil, List.filterMap_cons, List.filterMap_nil, hc,
    h1, h3]
  simp
  rfl

/-- The scanner yields one empty line for each of the leading line feeds. -/
theorem scanAux_blank (n : Nat) (rest : List Char) :
    scanAux (List.replicate n '\n' ++ rest) [] = List.replicate n "" ++ scanAux rest [] := by
  induction n with
  | zero => simp
  | succ k ih =>
    have hm : ¬ maxScanTokenSize ≤ byteLen [] := by decide
    have hd : String.mk (dropCR ([] : List Char).reverse) = "" := by decide
    simp only [List.replicate_succ, List.cons_append, scanAux, if_true, hm, if_false, hd]
    exact congrArg _ ih

/-- Empty lines only move the counter. -/
theorem scanLoop_blank (bits : Nat) (env : Env) (rest : List String) (w : World) :
    ∀ (n : Nat) (i : Int), scanLoop bits env i (List.replicate n "" ++ rest) w =
      scanLoop bits env ((fun j => wrapInt bits (j + 1))^[n] i) rest w := by
  intro n
  induction n with
  | zero => intro i; rfl
  | succ k ih =>
    intro i
    have he : ∀ j, processLine env "" j w = w := by
      intro j
      have : stripLine "" = "" := by decide
      simp [processLine, this]
    simp only [List.replicate_succ, List.cons_append, scanLoop, he, Function.iterate_succ,
      Function.comp_apply]
    exact ih _

/-- Within the range of `int`, `n` increments of the counter add `n`. -/
theorem wrapInt_iterate (bits : Nat) (hbits : 0 < bits) : ∀ (n k : Nat),
    k + n < 2 ^ (bits - 1) →
    (fun j => wrapInt bits (j + 1))^[n] (k : Int) = ((k + n : Nat) : Int) := by
  intro n
  induction n with
  | zero => intro k _; rfl
  | succ m ih =>
    intro k hk
    have hw : wrapInt bits ((k : Int) + 1) = ((k + 1 : Nat) : Int) := by
      have h1 : ((k + 1 : Nat) : Int) < 2 ^ (bits - 1) := by
        have : k + 1 < 2 ^ (bits - 1) := by omega
        exact_mod_cast this
      rw [Nat.cast_add, Nat.cast_one] at h1 ⊢
      exact wrapInt_id bits _ hbits (by omega) h1
    rw [Function.iterate_succ, Function.comp_apply, hw, ih (k + 1) (by omega)]
    congr 1
    omega

/-- The scan of `n` empty lines and the line `oops`, the counter staying in
range up to the last line but one. -/
theorem mainLoop_blank (bits : Nat) (hbits : 0 < bits) (n : Nat) (hn : n < 2 ^ (bits - 1))
    (env : Env) (w : World) :
    mainLoop bits env (blankLinesManifest n) w =
      processLine env "oops" (wrapInt bits ((n : Int) + 1)) w := by
  have hs : scanLines (blankLinesManifest n) = List.replicate n "" ++ ["oops"] := by
    show scanAux (List.replicate n '\n' ++ "oops\n".data) [] = _
    rw [scanAux_blank]
    congr 1
  have hi := wrapInt_iterate bits hbits n 0 (by omega)
  simp only [Nat.cast_zero, Nat.zero_add] at hi
  rw [mainLoop, hs, scanLoop_blank, hi]
  simp only [scanLoop]

/-- The physical lines of `n` empty lines and the line `oops`. -/
theorem physicalLines_blank (n : Nat) :
    physicalLines (blankLinesManifest n).content = List.replicate n [] ++ ["oops".data] := by
  show linesAux (List.replicate n '\n' ++ "oops\n".data) [] = _
  induction n with
  | zero => decide
  | succ k ih =>
    simp only [List.replicate_succ, List.cons_append, linesAux, if_true, List.reverse_nil]
    exact congrArg _ ih

/-- On a platform whose `int` has 32 bits, line `2 ^ 31` of a manifest is
processed with the number `- 2 ^ 31`. -/
theorem mainLoop_wrap (env : Env) (w : World) :
    (physicalLines (blankLinesManifest 2147483647).content).length = 2147483648 ∧
    mainLoop 32 env (blankLinesManifest 2147483647) w =
      processLine env "oops" (-2147483648) w := by
  constructor
  · rw [physicalLines_blank, List.length_append, List.length_replicate]
    rfl
  · rw [mainLoop_blank 32 (by decide) 2147483647 (by decide)]
    have hw : wrapInt 32 (((2147483647 : Nat) : Int) + 1) = -2147483648 := by decide
    rw [hw]

/-- C7 as stated fails: in the manifest of the three lines `a b`, a comment of
65536 characters and `oops`, the scanner stops at the second line, so the scan
is the processing of the first line alone; the third line, which has a single
field, is never processed and gets no warning `bad line`, which the fold over
the three physical lines would give it.  In the same way, when a read fails
after the first line of the manifest `a b`, `oops`, the second line is never
processed.  And with an `int` of 32 bits, line 2147483648 of a manifest is
processed with the number -2147483648. -/
theorem mainLoop_long_line_counterexample :
    physicalLines (longLineManifest maxScanTokenSize).content =
      ["a b".data, List.replicate maxScanTokenSize '#', "oops".data] ∧
    (fields (stripLine "oops")).length = 1 ∧
    mainLoop 64 failingEnv (longLineManifest maxScanTokenSize) startWorld =
      processLine failingEnv "a b" 1 startWorld ∧
    (mainLoop 64 failingEnv (longLineManifest maxScanTokenSize) startWorld).trace.filter
      isBadLine = [] ∧
    ((List.enumFrom 1 ["a b", String.mk (List.replicate maxScanTokenSize '#'), "oops"]).foldl
      (fun v p => processLine failingEnv p.2 (p.1 : Int) v) startWorld).trace.filter
      isBadLine = [.warn ">> bad line 3, skipping...\n"] ∧
    physicalLines brokenRead.content = ["a b".data, "oops".data] ∧
    mainLoop 64 failingEnv brokenRead startWorld = processLine failingEnv "a b" 1 startWorld ∧
    (physicalLines (blankLinesManifest 2147483647).content).length = 2147483648 ∧
    (mainLoop 32 failingEnv (blankLinesManifest 2147483647) startWorld).trace =
      [.warn ">> bad line -2147483648, skipping...\n"] :=
  ⟨(scanLines_long maxScanTokenSize (Nat.le_refl _)).1, by decide,
    mainLoop_long maxScanTokenSize (Nat.le_refl _) failingEnv startWorld,
    by rw [mainLoop_long maxScanTokenSize (Nat.le_refl _)]; decide,
    fold_long maxScanTokenSize (by decide) failingEnv startWorld, by decide, by decide,
    (mainLoop_wrap failingEnv startWorld).1,
    by rw [(mainLoop_wrap failingEnv startWorld).2]; decide⟩

/-- C7, amended: for a manifest that is read to its end, whose physical lines are
all shorter than 64 KiB and fewer than the range of `int`, the scan is the fold
of `processLine` over the physical lines in file order, line `k` (counted from
1) being processed with the number `k`, once, whatever the earlier lines did.
Whatever the environment answers, the warnings `bad line` added by the scan are
exactly those of the lines with a single field, in file order, each with the
number of its line, and the fetches are exactly those of the lines with two
fields or more, in file order.  For the manifest of the four lines
`github.com/a/b v1`, empty, `oops`, `github.com/c/d v2`: one warning
`bad line 3`, and a fetch for each of the two entries. -/
theorem mainLoop_every_line (bits : Nat) (env : Env) (m : Manifest) (w : World)
    (hbits : 0 < bits) (hread : m.readFails = none)
    (hshort : ∀ l ∈ physicalLines m.content, byteLen l < maxScanTokenSize)
    (hcount : (physicalLines m.content).length < 2 ^ (bits - 1)) :
    mainLoop bits env m w =
      (List.enumFrom 1 ((physicalLines m.content).map (fun l => String.mk (dropCR l)))).foldl
        (fun v p => processLine env p.2 (p.1 : Int) v) w ∧
    (mainLoop bits env m w).trace.filter isBadLine =
      w.trace.filter isBadLine ++
        (List.enumFrom 1 ((physicalLines m.content).map
          (fun l => String.mk (dropCR l)))).filterMap (fun p =>
            if (fields (stripLine p.2)).length = 1 then
              some (Event.warn (">> bad line " ++ toString (p.1 : Int) ++ ", skipping...\n"))
            else none) ∧
    (mainLoop bits env m w).trace.filterMap fetchArgs =
      w.trace.filterMap fetchArgs ++
        ((physicalLines m.content).map (fun l => String.mk (dropCR l))).filterMap (fun l =>
          match fields (stripLine l) with
          | a :: _ :: _ => some ["get", "-u", "-d", a]
          | _ => none) ∧
    (mainLoop 64 env fourLines w).trace.filter isBadLine =
      w.trace.filter isBadLine ++ [.warn ">> bad line 3, skipping...\n"] ∧
    (mainLoop 64 env fourLines w).trace.filterMap fetchArgs =
      w.trace.filterMap fetchArgs ++
        [["get", "-u", "-d", "github.com/a/b"], ["get", "-u", "-d", "github.com/c/d"]] := by
  have h0 := mainLoop_fold bits env m w hbits hread hshort hcount
  have h1 := fold_read env ((physicalLines m.content).map (fun l => String.mk (dropCR l))) 1 w
  have h4 := mainLoop_fold 64 env fourLines w (by decide) rfl (by decide) (by decide)
  have hl : (physicalLines fourLines.content).map (fun l => String.mk (dropCR l)) =
      ["github.com/a/b v1", "", "oops", "github.com/c/d v2"] := by decide
  have h5 := fold_read env ["github.com/a/b v1", "", "oops", "github.com/c/d v2"] 1 w
  rw [hl] at h4
  refine ⟨h0, ?_, ?_, ?_, ?_⟩
  · rw [h0]; exact h1.1
  · rw [h0]; exact h1.2
  · rw [h4, h5.1]
    congr 1
  · rw [h4, h5.2]
    congr 1

/-- Witness of C7, amended: the manifest of four lines when every fetch fails. -/
theorem mainLoop_every_line_witness :
    (mainLoop 64 failingEnv fourLines startWorld).trace =
      [.print ">> getting package github.com/a/b\n",
       .exec "go" ["get", "-u", "-d", "github.com/a/b"] false,
       .warn ">> error getting: github.com/a/b\n",
       .warn ">> bad line 3, skipping...\n",
       .print ">> getting package github.com/c/d\n",
       .exec "go" ["get", "-u", "-d", "github.com/c/d"] false,
       .warn ">> error getting: github.com/c/d\n"] :=
  (congrArg World.trace
    (mainLoop_every_line 64 failingEnv fourLines startWorld (by decide) rfl (by decide)
      (by decide)).1).trans (by decide)

/-! ## The claim on the order of the effects -/

theorem staged_nil (acc : List Event) : Staged acc [] := by
  intro pre e post h
  simp at h

/-- Staging of a list from the staging of its head and of its tail read after
the head. -/
theorem staged_cons (acc : List Event) (x : Event) (l : List Event)
    (hx : stageOk acc x l) (hl : Staged (acc ++ [x]) l) : Staged acc (x :: l) := by
  intro pre e post h
  cases pre with
  | nil =>
    simp at h
    obtain ⟨rfl, rfl⟩ := h
    simpa using hx
  | cons p ps =>
    simp at h
    obtain ⟨rfl, rfl⟩ := h
    simpa using hl ps e post rfl

/-- Staging through a block of events that are allowed wherever they stand. -/
theorem staged_append (S : List Event) : ∀ (acc R : List Event),
    (∀ e ∈ S, ∀ pre post, stageOk (acc ++ pre) e post) → Staged (acc ++ S) R →
    Staged acc (S ++ R) := by
  induction S with
  | nil => intro acc R _ hR; simpa using hR
  | cons s ss ih =>
    intro acc R hS hR
    refine staged_cons acc s (ss ++ R) ?_ (ih (acc ++ [s]) R ?_ ?_)
    · simpa using hS s (by simp) [] (ss ++ R)
    · intro e he pre post
      simpa using hS e (by simp [he]) (s :: pre) post
    · simpa using hR

theorem missEvents_stage (dir : String) (S : List Event) (hS : MissEvents dir vcsList S) :
    ∀ s ∈ S.filterMap Event.stage, s = 3 := by
  intro s hs
  obtain ⟨e, he, hes⟩ := List.mem_filterMap.1 hs
  obtain ⟨y, _, ⟨r, _, rfl⟩ | rfl⟩ := hS e he
  · simpa [Event.stage] using hes.symm
  · simp [Event.stage] at hes

theorem missEvents_count (dir : String) (S : List Event) (hS : MissEvents dir vcsList S)
    (k : Nat) (hk : k ≠ 3) : S.countP (fun e => e.stage = some k) = 0 := by
  rw [List.countP_eq_zero]
  intro e he
  obtain ⟨y, _, ⟨r, _, rfl⟩ | rfl⟩ := hS e he
  · simpa [Event.stage] using fun h => hk h.symm
  · simp [Event.stage]

theorem missEvents_ok (dir : String) (S : List Event) (hS : MissEvents dir vcsList S)
    (acc : List Event)
    (hacc : ∃ d path srcDir, .importPath path srcDir (some d) ∈ acc ∧ .chdir d true ∈ acc) :
    ∀ e ∈ S, ∀ pre post, stageOk (acc ++ pre) e post := by
  intro e he pre post
  obtain ⟨d, path, srcDir, h1, h2⟩ := hacc
  obtain ⟨y, _, ⟨r, _, rfl⟩ | rfl⟩ := hS e he
  · exact ⟨⟨d, path, srcDir, by simp [h1], by simp [h2]⟩, by simp⟩
  · exact ⟨trivial, by simp⟩

/-- Every shape of `pinEntry` is staged. -/
theorem pinShape_staged (a b wd : String) (es : List Event) (h : PinShape a b wd es) :
    Staged [] es := by
  cases h with
  | fetchFailed =>
    refine staged_cons _ _ _ ?_ (staged_cons _ _ _ ?_ (staged_cons _ _ _ ?_ (staged_nil _)))
    all_goals simp [stageOk, allowedAfter]
  | unresolved =>
    refine staged_cons _ _ _ ?_ (staged_cons _ _ _ ?_ (staged_cons _ _ _ ?_ (staged_cons _ _ _ ?_ (staged_nil _))))
    all_goals simp [stageOk, allowedAfter]
  | noChdir dir =>
    refine staged_cons _ _ _ ?_ (staged_cons _ _ _ ?_ (staged_cons _ _ _ ?_ (staged_cons _ _ _ ?_ (staged_cons _ _ _ ?_ (staged_nil _)))))
    all_goals simp [stageOk, allowedAfter]
  | unknown dir S hS =>
    refine staged_cons _ _ _ ?_ (staged_cons _ _ _ ?_ (staged_cons _ _ _ ?_ (staged_cons _ _ _ ?_ (staged_append S _ _ (missEvents_ok dir S hS _ ?_) ?_))))
    · simp [stageOk, allowedAfter]
    · simp [stageOk, allowedAfter]
    · simp [stageOk, allowedAfter]
    · simp [stageOk, allowedAfter]
    · exact ⟨dir, a, wd, by simp, by simp⟩
    · refine staged_cons _ _ _ ?_ (staged_nil _)
      simp [stageOk, allowedAfter]
  | matched dir S hS x hx T hT =>
    refine staged_cons _ _ _ ?_ (staged_cons _ _ _ ?_ (staged_cons _ _ _ ?_ (staged_cons _ _ _ ?_ (staged_append S _ _ (missEvents_ok dir S hS _ ?_) ?_))))
    · simp [stageOk, allowedAfter]
    · simp [stageOk, allowedAfter]
    · simp [stageOk, allowedAfter]
    · simp [stageOk, allowedAfter]
    · exact ⟨dir, a, wd, by simp, by simp⟩
    · cases hT with
      | missing =>
        refine staged_cons _ _ _ ?_ (staged_cons _ _ _ ?_ (staged_cons _ _ _ ?_ (staged_cons _ _ _ ?_ (staged_nil _))))
        · simp [stageOk, allowedAfter]
          exact ⟨dir, ⟨a, wd, Or.inl ⟨rfl, rfl, rfl⟩⟩, Or.inl rfl⟩
        · simp [stageOk, allowedAfter]
        · simp [stageOk, allowedAfter]
          exact ⟨x, hx, rfl, by simp⟩
        · simp [stageOk, allowedAfter]
      | done =>
        refine staged_cons _ _ _ ?_ (staged_cons _ _ _ ?_ (staged_cons _ _ _ ?_ (staged_cons _ _ _ ?_ (staged_nil _))))
        · simp [stageOk, allowedAfter]
          exact ⟨dir, ⟨a, wd, Or.inl ⟨rfl, rfl, rfl⟩⟩, Or.inl rfl⟩
        · simp [stageOk, allowedAfter]
        · simp [stageOk, allowedAfter]
          exact ⟨x, hx, rfl, by simp⟩
        · simp [stageOk, allowedAfter]
      | failed e out =>
        refine staged_cons _ _ _ ?_ (staged_cons _ _ _ ?_ (staged_cons _ _ _ ?_ (staged_cons _ _ _ ?_ (staged_cons _ _ _ ?_ (staged_cons _ _ _ ?_ (staged_nil _))))))
        · simp [stageOk, allowedAfter]
          exact ⟨dir, ⟨a, wd, Or.inl ⟨rfl, rfl, rfl⟩⟩, Or.inl rfl⟩
        · simp [stageOk, allowedAfter]
        · simp [stageOk, allowedAfter]
          exact ⟨x, hx, rfl, by simp⟩
        · simp [stageOk, allowedAfter]
        · simp [stageOk, allowedAfter]
        · simp [stageOk, allowedAfter]

theorem checkoutShape_order (path rev : String) (x : VcsInfo) (hx : x ∈ vcsList)
    (T : List Event) (hT : CheckoutShape path rev x T) :
    (T.filterMap Event.stage = [4] ∨ T.filterMap Event.stage = [4, 5]) ∧
    T.countP (fun e => e.stage = some 0) = 0 ∧
    T.countP (fun e => e.stage = some 2) = 0 ∧
    T.countP (fun e => e.stage = some 5) ≤ 1 := by
  have hgo := tool_ne_go x hx
  cases hT with
  | missing => simp [Event.stage, List.countP_cons]
  | done => simp [Event.stage, List.countP_cons, hgo]
  | failed e out => simp [Event.stage, List.countP_cons, hgo]

/-- Every shape of `pinEntry` has its stages in order, with at most one fetch,
one change of directory and one checkout command. -/
theorem pinShape_order (a b wd : String) (es : List Event) (h : PinShape a b wd es) :
    (es.filterMap Event.stage).Pairwise (fun s t => s < t ∨ (s = 3 ∧ t = 3)) ∧
    es.countP (fun e => e.stage = some 0) ≤ 1 ∧
    es.countP (fun e => e.stage = some 2) ≤ 1 ∧
    es.countP (fun e => e.stage = some 5) ≤ 1 := by
  cases h with
  | fetchFailed => simp [Event.stage, List.countP_cons]
  | unresolved => simp [Event.stage, List.countP_cons]
  | noChdir dir => simp [Event.stage, List.countP_cons]
  | unknown dir S hS =>
    have h3 := missEvents_stage dir S hS
    have c0 := missEvents_count dir S hS 0 (by decide)
    have c2 := missEvents_count dir S hS 2 (by decide)
    have c5 := missEvents_count dir S hS 5 (by decide)
    refine ⟨?_, ?_, ?_, ?_⟩
    · simp only [List.filterMap_cons, Event.stage, List.filterMap_append, List.filterMap_nil,
        if_true, List.append_nil, List.pairwise_cons]
      refine ⟨?_, ?_, ?_, ?_⟩
      · intro t ht
        rcases List.mem_cons.1 ht with rfl | ht
        · simp
        · rcases List.mem_cons.1 ht with rfl | ht
          · simp
          · simp [h3 t ht]
      · intro t ht
        rcases List.mem_cons.1 ht with rfl | ht
        · simp
        · simp [h3 t ht]
      · intro t ht
        simp [h3 t ht]
      · exact List.pairwise_of_forall_mem_list (fun s hs t ht => by simp [h3 s hs, h3 t ht])
    · simp only [List.countP_cons, List.countP_append, List.countP_nil, c0]
      simp [Event.stage]
    · simp only [List.countP_cons, List.countP_append, List.countP_nil, c2]
      simp [Event.stage]
    · simp only [List.countP_cons, List.countP_append, List.countP_nil, c5]
      simp [Event.stage]
  | matched dir S hS x hx T hT =>
    have h3 := missEvents_stage dir S hS
    have c0 := missEvents_count dir S hS 0 (by decide)
    have c2 := missEvents_count dir S hS 2 (by decide)
    have c5 := missEvents_count dir S hS 5 (by decide)
    obtain ⟨hT1, t0, t2, t5⟩ := checkoutShape_order a b x hx T hT
    refine ⟨?_, ?_, ?_, ?_⟩
    · have hall : ∀ t ∈ S.filterMap Event.stage ++ 3 :: T.filterMap Event.stage,
          t = 3 ∨ t = 4 ∨ t = 5 := by
        intro t ht
        rcases List.mem_append.1 ht with ht | ht
        · exact Or.inl (h3 t ht)
        · rcases hT1 with hT1 | hT1 <;> rw [hT1] at ht <;> simp at ht <;> omega
      simp only [List.filterMap_cons, Event.stage, List.filterMap_append,
        if_true, List.pairwise_cons]
      refine ⟨?_, ?_, ?_, ?_⟩
      · intro t ht
        rcases List.mem_cons.1 ht with rfl | ht
        · simp
        · rcases List.mem_cons.1 ht with rfl | ht
          · simp
          · rcases hall t ht with rfl | rfl | rfl <;> simp
      · intro t ht
        rcases List.mem_cons.1 ht with rfl | ht
        · simp
        · rcases hall t ht with rfl | rfl | rfl <;> simp
      · intro t ht
        rcases hall t ht with rfl | rfl | rfl <;> simp
      · rw [List.pairwise_append]
        refine ⟨List.pairwise_of_forall_mem_list (fun s hs t ht => by simp [h3 s hs, h3 t ht]),
          ?_, ?_⟩
        · rcases hT1 with hT1 | hT1 <;> rw [hT1] <;> simp
        · intro s hs t ht
          rw [h3 s hs]
          rcases hT1 with hT1 | hT1 <;> rw [hT1] at ht <;> simp at ht <;> omega
    · simp only [List.countP_cons, List.countP_append, List.countP_nil, c0, t0]
      simp [Event.stage]
    · simp only [List.countP_cons, List.countP_append, List.countP_nil, c2, t2]
      simp [Event.stage]
    · simp only [List.countP_cons, List.countP_append, List.countP_nil, c5]
      simpa [Event.stage] using t5

/-- C10: the events that `processLine` adds for a line come in the order fetch,
import-path resolution, change of directory, marker stats, tool lookup, checkout
command, each stage but the stats at most once; every event has before it what
`allowedAfter` asks for: the successful fetch before the resolution, the
resolution before the change of directory, the successful change to the
resolved directory before a `stat`, the `stat` that found the marker directory
before the lookup of the tool, the successful lookup of the tool before the
checkout command; a failed lookup is followed by its warning and nothing else;
there is at most one fetch, one change of directory and one checkout command. -/
theorem processLine_stage_order (env : Env) (line : String) (n : Int) (w : World) :
    ∃ es, (processLine env line n w).trace = w.trace ++ es ∧
      (es.filterMap Event.stage).Pairwise (fun s t => s < t ∨ (s = 3 ∧ t = 3)) ∧
      (∀ pre e post, es = pre ++ e :: post →
        allowedAfter pre e ∧
        ∀ tool, e = .lookPath tool false →
          post = [.warn (">> tool \x27" ++ tool ++ "\x27 was not found in PATH\n")]) ∧
      es.countP (fun e => e.stage = some 0) ≤ 1 ∧
      es.countP (fun e => e.stage = some 2) ≤ 1 ∧
      es.countP (fun e => e.stage = some 5) ≤ 1 := by
  by_cases h0 : (stripLine line).length = 0
  · refine ⟨[], by simp [processLine, h0], by simp, ?_, by simp, by simp, by simp⟩
    intro pre e post h
    simp at h
  · match hf : fields (stripLine line) with
    | [] =>
      exact absurd hf (fields_stripLine_ne_nil line h0)
    | [t] =>
      refine ⟨[.warn (">> bad line " ++ toString n ++ ", skipping...\n")], ?_,
        by simp [Event.stage], ?_, by simp [Event.stage], by simp [Event.stage],
        by simp [Event.stage]⟩
      · rw [processLine_one_field env line n w (fun h => h0 (by rw [h]; rfl))
          (by rw [hf]; simp)]
      · have hs : Staged [] [.warn (">> bad line " ++ toString n ++ ", skipping...\n")] :=
          staged_cons _ _ _ (by simp [stageOk, allowedAfter]) (staged_nil _)
        intro pre e post h
        simpa [stageOk] using hs pre e post h
    | a :: b :: rest =>
      obtain ⟨es, hs, ht, _⟩ := pinEntry_shape env a b w
      obtain ⟨o1, o2, o3, o4⟩ := pinShape_order a b _ es hs
      have hst := pinShape_staged a b _ es hs
      refine ⟨es, ?_, o1, ?_, o2, o3, o4⟩
      · rw [processLine_entry env line n w a b rest hf, ht]
      · intro pre e post h
        simpa [stageOk] using hst pre e post h

end Gdeps
